import Mathlib

/-!
Verification development for the B-tree module `src/data_structures/tree/btree.py`.

The Python code mutates nodes in place and navigates through `parent`
back-references, so the embedding uses an explicit arena ("heap") of node
records addressed by numeric ids.  Each Python method on `BTreeNode` /
`BTree` becomes a function threading the heap (and, for tree-level
operations, the tree state holding the root id).  Upward recursion through
parent pointers is bounded by an explicit fuel parameter; `none` signals a
runtime error in the Python (index out of range, missing attribute) or
fuel exhaustion.

The base classes (`TreeNode`, `Tree`, `Vector`) and the tree-walk skeleton
live outside the repository snapshot; every definition taken from them
rather than from `btree.py` carries a doc comment starting with
`Modelled from the spec:`.
-/

variable {α : Type}

/-- Record of one `BTreeNode` object: the fields set by `TreeNode.__init__`
(`tree_order`, `children`, `values`, `parent`), with children and parent
stored as arena ids. -/
structure NodeData (α : Type) where
  tree_order : Nat
  children : List Nat
  values : List α
  parent : Option Nat
deriving Repr, DecidableEq

/-- The arena of allocated nodes: an association list from id to record,
together with the next fresh id. -/
structure Heap (α : Type) where
  nodes : List (Nat × NodeData α)
  nextId : Nat
deriving Repr, DecidableEq

/-- Look up the record of node `i`. -/
def Heap.find? (h : Heap α) (i : Nat) : Option (NodeData α) :=
  (h.nodes.find? (fun p => p.1 == i)).map (fun p => p.2)

/-- Overwrite the record of node `i` (no-op when `i` is unallocated),
modelling Python field assignment on an aliased object. -/
def Heap.setNode (h : Heap α) (i : Nat) (d : NodeData α) : Heap α :=
  { h with nodes := h.nodes.map (fun p => if p.1 == i then (i, d) else p) }

/-- Apply `f` to the record of node `i` (no-op when `i` is unallocated). -/
def Heap.modifyNode (h : Heap α) (i : Nat) (f : NodeData α → NodeData α) : Heap α :=
  match h.find? i with
  | none => h
  | some d => h.setNode i (f d)

/-- From `BTreeNode.__init__`: `min_order = ceil(tree_order / 2)`. -/
def NodeData.min_order (n : NodeData α) : Nat := (n.tree_order + 1) / 2

/-- From `BTreeNode.__init__`: `split_value_ix = floor(tree_order / 2)`. -/
def NodeData.split_value_ix (n : NodeData α) : Nat := n.tree_order / 2

/-- From `BTreeNode.__init__`: `split_child_ix = ceil((tree_order + 1) / 2)`. -/
def NodeData.split_child_ix (n : NodeData α) : Nat := (n.tree_order + 2) / 2

/-- Modelled from the spec: `order()` is the external `TreeNode` occupancy
metric; the spec's occupancy bounds and the `on_insert` trigger count keys,
so it is the number of values held. -/
def NodeData.order (n : NodeData α) : Nat := n.values.length

/-- Modelled from the spec: `is_leaf()` from the external `TreeNode` class;
a leaf has empty `children` (spec section 3). -/
def NodeData.is_leaf (n : NodeData α) : Bool := n.children.isEmpty

/-- Modelled from the spec: `is_root()` from the external `TreeNode` class;
the root is the node with no parent back-reference (spec section 3). -/
def NodeData.is_root (n : NodeData α) : Bool := n.parent.isNone

/-- Modelled from the spec: `is_full()` from the external `TreeNode` class,
occupancy at or over capacity; the spec's insertion hook fires it when the
node holds `m` keys (spec sections 4.2 and 6). -/
def NodeData.is_full (n : NodeData α) : Bool := decide (n.tree_order ≤ n.order)

/-- From `BTreeNode.is_min_internal_order`: `order() < min_order`. -/
def NodeData.is_min_internal_order (n : NodeData α) : Bool :=
  decide (n.order < n.min_order)

/-- From `BTreeNode.is_min_leaf_order`: `order() < min_order - 1`. -/
def NodeData.is_min_leaf_order (n : NodeData α) : Bool :=
  decide (n.order < n.min_order - 1)

/-- Point the parent reference of every id in `cs` at `nid`.  This is the
re-parenting loop of `BTree._delete_min_order` (btree.py lines 145-146) and
is also how the modelled constructor re-points the children handed to it. -/
def Heap.reparentAll (h : Heap α) (cs : List Nat) (nid : Nat) : Heap α :=
  cs.foldl (fun hh c => hh.modifyNode c (fun d => { d with parent := some nid })) h

/-- Modelled from the spec: the external `TreeNode` constructor invoked via
`_create_node` and `BTreeNode.split`.  It allocates a fresh node with the
given fields; spec section 4.2 step 3 states that children handed to a new
node are re-parented to it, so the constructor re-points each child's
parent reference. -/
def Heap.createNode (h : Heap α) (tree_order : Nat) (children : List Nat)
    (values : List α) (parent : Option Nat) : Nat × Heap α :=
  let i := h.nextId
  let h1 : Heap α :=
    { nodes := (i, ⟨tree_order, children, values, parent⟩) :: h.nodes,
      nextId := h.nextId + 1 }
  (i, h1.reparentAll children i)

/-- Modelled from the spec: `siblings(child_index)` from the external
`TreeNode` class, returning the left and right neighbours of the child at
`child_index` among the parent's children (or `none` at the ends). -/
def Heap.siblings (h : Heap α) (nid : Nat) (child_ix : Nat) :
    Option Nat × Option Nat :=
  match ((h.find? nid).bind (fun n => n.parent)).bind h.find? with
  | none => (none, none)
  | some p =>
      (if child_ix = 0 then none else p.children.get? (child_ix - 1),
       p.children.get? (child_ix + 1))

/-- From `BTreeNode.split` (btree.py lines 31-48): detach the children from
`split_child_ix` and the values after `split_value_ix` into a freshly
constructed right node sharing the order and parent of the original; the
value at `split_value_ix` is lifted out and returned with the right node's
id and the updated heap. -/
def Heap.split (h : Heap α) (nid : Nat) : Option (α × Nat × Heap α) := do
  let n ← h.find? nid
  let right_children := n.children.drop n.split_child_ix
  let left_children := n.children.take n.split_child_ix
  let split_value ← n.values.get? n.split_value_ix
  let right_values := n.values.drop (n.split_value_ix + 1)
  let left_values := n.values.take n.split_value_ix
  let h1 := h.setNode nid { n with children := left_children, values := left_values }
  let (rid, h2) := h1.createNode n.tree_order right_children right_values n.parent
  pure (split_value, rid, h2)

/-- From `BTreeNode.rotate` (btree.py lines 50-70): pop the last (resp.
first) value of the adjacent node, swap it with the parent's value at
`parent_value_ix`, and prepend (resp. append) the displaced parent value to
this node's values; when the adjacent node is internal, the corresponding
end child is detached, re-parented to this node, and attached on the
matching side. -/
def Heap.rotate (h : Heap α) (nid : Nat) (parent_value_ix : Nat) (adjId : Nat)
    (go_left : Bool) : Option (Heap α) := do
  let self0 ← h.find? nid
  let pid ← self0.parent
  let adj0 ← h.find? adjId
  let new_root ← if go_left then adj0.values.getLast? else adj0.values.head?
  let adjValues := if go_left then adj0.values.dropLast else adj0.values.tail
  let h1 := h.setNode adjId { adj0 with values := adjValues }
  let parent0 ← h1.find? pid
  let new_sibling ← parent0.values.get? parent_value_ix
  let h2 := h1.setNode pid
    { parent0 with values := parent0.values.set parent_value_ix new_root }
  let self1 ← h2.find? nid
  let h3 := h2.setNode nid
    { self1 with values :=
        if go_left then new_sibling :: self1.values else self1.values ++ [new_sibling] }
  let adj1 ← h3.find? adjId
  if adj1.is_leaf then
    pure h3
  else do
    let child ← if go_left then adj1.children.getLast? else adj1.children.head?
    let h4 := h3.setNode adjId
      { adj1 with children := if go_left then adj1.children.dropLast else adj1.children.tail }
    let h5 := h4.modifyNode child (fun d => { d with parent := some nid })
    let self2 ← h5.find? nid
    let h6 := h5.setNode nid
      { self2 with children :=
          if go_left then child :: self2.children else self2.children ++ [child] }
    pure h6

/-- From `BTreeNode.transfer` (btree.py lines 72-84): delegates to `rotate`,
dropping the `rotate_children` flag. -/
def Heap.transfer (h : Heap α) (nid : Nat) (parent_value_ix : Nat) (adjId : Nat)
    (go_left : Bool) (rotate_children : Bool) : Option (Heap α) :=
  h.rotate nid parent_value_ix adjId go_left

/-- From `BTreeNode.merge` (btree.py lines 86-104): pop the parent's value
at `parent_value_ix`; concatenate the adjacent node's values and children
around it (adjacent side first when `go_left`); drop the absorbed sibling's
slot from the parent's children.  Python's `pop(child_ix - 1)` is reached
only with `child_ix ≥ 1` (a left sibling exists), which the theorems assume. -/
def Heap.merge (h : Heap α) (nid : Nat) (child_ix : Nat) (parent_value_ix : Nat)
    (adjId : Nat) (go_left : Bool) : Option (Heap α) := do
  let self0 ← h.find? nid
  let pid ← self0.parent
  let parent0 ← h.find? pid
  let value ← parent0.values.get? parent_value_ix
  let h1 := h.setNode pid
    { parent0 with values := parent0.values.eraseIdx parent_value_ix }
  let adj0 ← h1.find? adjId
  let self1 ← h1.find? nid
  if go_left then do
    let h2 := h1.setNode nid
      { self1 with values := adj0.values ++ value :: self1.values,
                   children := adj0.children ++ self1.children }
    let parent1 ← h2.find? pid
    let h3 := h2.setNode pid
      { parent1 with children := parent1.children.eraseIdx (child_ix - 1) }
    pure h3
  else do
    let h2 := h1.setNode nid
      { self1 with values := self1.values ++ value :: adj0.values,
                   children := self1.children ++ adj0.children }
    let parent1 ← h2.find? pid
    let h3 := h2.setNode pid
      { parent1 with children := parent1.children.eraseIdx (child_ix + 1) }
    pure h3

/-- State of a `BTree` object: the arena, the root id, and the order. -/
structure BTreeState (α : Type) where
  heap : Heap α
  root : Nat
  order : Nat
deriving Repr, DecidableEq

/-- Modelled from the spec: `_get_node_ix` from the external `Tree` class,
which locates a node's index among a parent's children by a
comparator-driven bisect of the parent's keys (spec section 4.2 step 2):
the number of keys strictly below the probe. -/
def getNodeIx [LinearOrder α] (n : NodeData α) (v : α) : Nat :=
  n.values.countP (fun w => decide (w < v))

/-- From `BTree._split_insert` (btree.py lines 166-185): split the node; if
it is not the root, insert the new right sibling and the lifted median into
the parent at the bisect position of the median, else create a fresh root
holding the median with the two halves as children; recurse on the parent
when it is now full, otherwise return the split node's id. -/
def splitInsert [LinearOrder α] :
    Nat → BTreeState α → Nat → Option (BTreeState α × Nat)
  | 0, _, _ => none
  | fuel + 1, t, nid => do
    let (split_value, rightId, h) ← t.heap.split nid
    let node ← h.find? nid
    match node.parent with
    | some pid => do
        let parent0 ← h.find? pid
        let child_ix := getNodeIx parent0 split_value
        let h1 := h.setNode pid
          { parent0 with
            children := parent0.children.insertIdx (child_ix + 1) rightId,
            values := parent0.values.insertIdx child_ix split_value }
        let t1 : BTreeState α := { t with heap := h1 }
        let parent1 ← h1.find? pid
        if parent1.is_full then splitInsert fuel t1 pid else pure (t1, nid)
    | none => do
        let (newRoot, h1) := h.createNode t.order [nid, rightId] [split_value] none
        let t1 : BTreeState α := { t with heap := h1, root := newRoot }
        let rootData ← h1.find? newRoot
        if rootData.is_full then splitInsert fuel t1 newRoot else pure (t1, nid)

/-- From `BTree._on_insert` (btree.py lines 187-191): after the external
walk has inserted the raw value, split when the node is full.  Modelled
from the spec: the base-class `_on_insert` hook performs no structural
change of its own. -/
def onInsert [LinearOrder α] (fuel : Nat) (t : BTreeState α) (input_value : α)
    (value_ix : Nat) (nid : Nat) : Option (BTreeState α) := do
  let node ← t.heap.find? nid
  if node.is_full then do
    let (t1, _) ← splitInsert fuel t nid
    pure t1
  else
    pure t

/-- From `BTree._delete_min_order` (btree.py lines 114-157): at the root,
promote the first child to be the new root and clear its parent; otherwise
borrow from the left sibling when it is above minimum occupancy, else from
the right, else merge with the existing sibling (left preferred),
re-parent the node's children, and recurse on the parent when it emptied
or (non-root) fell below the minimum leaf order. -/
def deleteMinOrder [LinearOrder α] :
    Nat → BTreeState α → Nat → Nat → Option (BTreeState α)
  | 0, _, _, _ => none
  | fuel + 1, t, child_ix, nid => do
    let node ← t.heap.find? nid
    if node.is_root then do
      let c0 ← node.children.head?
      let h := t.heap.modifyNode c0 (fun d => { d with parent := none })
      pure { t with heap := h, root := c0 }
    else do
      let pid ← node.parent
      let (leftOpt, rightOpt) := t.heap.siblings nid child_ix
      let canLeft := match leftOpt.bind t.heap.find? with
        | some l => !l.is_min_internal_order
        | none => false
      let canRight := match rightOpt.bind t.heap.find? with
        | some r => !r.is_min_internal_order
        | none => false
      if canLeft then do
        let lid ← leftOpt
        let h ← t.heap.transfer nid (child_ix - 1) lid true true
        pure { t with heap := h }
      else if canRight then do
        let rid ← rightOpt
        let h ← t.heap.transfer nid child_ix rid false true
        pure { t with heap := h }
      else do
        let h1 ← match leftOpt with
          | some lid => t.heap.merge nid child_ix (child_ix - 1) lid true
          | none => match rightOpt with
            | some rid => t.heap.merge nid child_ix child_ix rid false
            | none => pure t.heap
        let node1 ← h1.find? nid
        let h2 := h1.reparentAll node1.children nid
        let t1 : BTreeState α := { t with heap := h2 }
        let parent1 ← h2.find? pid
        if parent1.order = 0 ∨ (!parent1.is_root ∧ parent1.is_min_leaf_order) then do
          let parent_ix ← match parent1.parent with
            | some gid => do
                let g ← h2.find? gid
                let node2 ← h2.find? nid
                let nv ← node2.values.head?
                pure (getNodeIx g nv)
            | none => pure 0
          deleteMinOrder fuel t1 parent_ix pid
        else
          pure t1

/-- From `BTree._on_delete` (btree.py lines 159-164): after the external
walk has removed the value from the leaf, resolve underflow when the node
is below the minimum leaf order and is not the root; the removed value is
handed back either way. -/
def onDelete [LinearOrder α] (fuel : Nat) (t : BTreeState α) (child_ix : Nat)
    (nid : Nat) (value : α) : Option (BTreeState α × α) := do
  let node ← t.heap.find? nid
  if node.is_min_leaf_order && !node.is_root then do
    let t1 ← deleteMinOrder fuel t child_ix nid
    pure (t1, value)
  else
    pure (t, value)

/-- Modelled from the spec: `locate_insert` from the external tree-walk
skeleton (spec section 6) descends by comparator bisect to the leaf where
the value belongs, refuses a key the comparator deems equal to an existing
one (`DuplicateKeyError`, rendered as `none`), performs the raw insertion
at the bisect offset, and fires `on_insert`. -/
def locateInsert [LinearOrder α] :
    Nat → BTreeState α → Nat → α → Option (BTreeState α)
  | 0, _, _, _ => none
  | fuel + 1, t, nid, v => do
    let node ← t.heap.find? nid
    if v ∈ node.values then
      none
    else if node.is_leaf then do
      let ix := getNodeIx node v
      let h := t.heap.setNode nid { node with values := node.values.insertIdx ix v }
      onInsert fuel { t with heap := h } v ix nid
    else do
      let cid ← node.children.get? (getNodeIx node v)
      locateInsert fuel t cid v

/-- Modelled from the spec: `insert(value)` on the external `Tree` class
starts the insertion walk at the root (spec section 6). -/
def treeInsert [LinearOrder α] (fuel : Nat) (t : BTreeState α) (v : α) :
    Option (BTreeState α) :=
  locateInsert fuel t t.root v

/-- A `BTree` as freshly constructed: spec section 3, a tree is initialized
with an empty root leaf. -/
def mkBTree (α : Type) (order : Nat) : BTreeState α :=
  { heap := { nodes := [(0, ⟨order, [], [], none⟩)], nextId := 1 },
    root := 0, order := order }

/-- Outcome of `locate_and_remove`: the `NotFoundError` branch carries the
tree state as it stands when the failure is reported. -/
inductive DelRes (α : Type) where
  | notFound (t : BTreeState α)
  | removed (t : BTreeState α) (v : α)
deriving Repr, DecidableEq

/-- Modelled from the spec: the descent to the leaf-resident predecessor
(spec section 6): follow last children down to a leaf, tracking the child
index within the parent. -/
def rightmostLeaf : Nat → Heap α → Nat → Nat → Option (Nat × Nat)
  | 0, _, _, _ => none
  | fuel + 1, h, nid, cix => do
    let n ← h.find? nid
    if n.is_leaf then
      pure (nid, cix)
    else do
      let last ← n.children.getLast?
      rightmostLeaf fuel h last (n.children.length - 1)

/-- Modelled from the spec: `locate_and_remove` from the external tree-walk
skeleton (spec section 6): descend by comparator bisect; on a hit in a leaf
remove the value there and fire `on_delete`; on a hit in an internal node
swap the value with the leaf-resident predecessor of its left subtree,
remove the leaf occurrence, and fire `on_delete` on that leaf; report
`NotFoundError` when the descent bottoms out without a hit. -/
def locateAndRemove [LinearOrder α] :
    Nat → BTreeState α → Nat → Nat → α → Option (DelRes α)
  | 0, _, _, _, _ => none
  | fuel + 1, t, nid, child_ix, v => do
    let node ← t.heap.find? nid
    let ix := getNodeIx node v
    if node.values.get? ix = some v then
      if node.is_leaf then do
        let h := t.heap.setNode nid { node with values := node.values.eraseIdx ix }
        let (t1, value) ← onDelete fuel { t with heap := h } child_ix nid v
        pure (DelRes.removed t1 value)
      else do
        let cid ← node.children.get? ix
        let (leafId, leafIx) ← rightmostLeaf fuel t.heap cid ix
        let leaf ← t.heap.find? leafId
        let pred ← leaf.values.getLast?
        let h := t.heap.setNode nid { node with values := node.values.set ix pred }
        let leaf1 ← h.find? leafId
        let h1 := h.setNode leafId { leaf1 with values := leaf1.values.dropLast }
        let (t1, value) ← onDelete fuel { t with heap := h1 } leafIx leafId v
        pure (DelRes.removed t1 value)
    else if node.is_leaf then
      pure (DelRes.notFound t)
    else do
      let cid ← node.children.get? ix
      locateAndRemove fuel t cid ix v

/-- Modelled from the spec: `delete(value)` on the external `Tree` class
starts the removal walk at the root (spec section 6). -/
def treeDelete [LinearOrder α] (fuel : Nat) (t : BTreeState α) (v : α) :
    Option (DelRes α) :=
  locateAndRemove fuel t t.root 0 v

/-- Pure view of the linked structure: a tree of value lists, read off the
arena by `extract`. -/
inductive PTree (α : Type) where
  | node (values : List α) (children : List (PTree α))

/-- Read the subtree rooted at id `i` out of the arena, following child ids
down to `fuel` levels. -/
def extract (h : Heap α) : Nat → Nat → Option (PTree α)
  | 0, _ => none
  | fuel + 1, i => do
    let d ← h.find? i
    let cs ← d.children.mapM (extract h fuel)
    pure (PTree.node d.values cs)

/-- The ids of the subtree rooted at `i`, in preorder. -/
def idsOf (h : Heap α) : Nat → Nat → Option (List Nat)
  | 0, _ => none
  | fuel + 1, i => do
    let d ← h.find? i
    let ls ← d.children.mapM (idsOf h fuel)
    pure (i :: ls.flatten)

/-- Multiset of the depths of all leaves of a pure tree (the root has
depth 0). -/
def PTree.leafDepths : PTree α → Multiset Nat
  | .node _ cs =>
    if cs.isEmpty then {0}
    else (cs.attach.map (fun c => Multiset.map (· + 1) (PTree.leafDepths c.1))).sum
decreasing_by
  simp only [PTree.node.sizeOf_spec]
  have := List.sizeOf_lt_of_mem c.2
  omega

/-- Height of a pure tree: a single leaf node has height 1. -/
def PTree.height : PTree α → Nat
  | .node _ cs => 1 + (cs.attach.map (fun c => PTree.height c.1)).foldr max 0
decreasing_by
  simp only [PTree.node.sizeOf_spec]
  have := List.sizeOf_lt_of_mem c.2
  omega

/-- Multiset of all values stored in a pure tree. -/
def PTree.keys : PTree α → Multiset α
  | .node vs cs => (vs : Multiset α) + (cs.attach.map (fun c => PTree.keys c.1)).sum
decreasing_by
  simp only [PTree.node.sizeOf_spec]
  have := List.sizeOf_lt_of_mem c.2
  omega

/-- All keys stored in the subtree rooted at `i`, own values first. -/
def subtreeKeys (h : Heap α) : Nat → Nat → Option (List α)
  | 0, _ => none
  | fuel + 1, i => do
    let d ← h.find? i
    let ls ← d.children.mapM (subtreeKeys h fuel)
    pure (d.values ++ ls.flatten)

/-- Fuel-bounded arity check: every node of the subtree rooted at `i` is
allocated and every internal node has one child more than it has keys. -/
def wfArity (h : Heap α) : Nat → Nat → Bool
  | 0, _ => false
  | fuel + 1, i =>
    match h.find? i with
    | none => false
    | some d =>
        (d.children.isEmpty || d.children.length == d.values.length + 1)
          && d.children.all (fun c => wfArity h fuel c)

/-- Shape of a node record: the fields `extract` reads (values and child
list), ignoring the parent back-reference. -/
def shapeAt (h : Heap α) (i : Nat) : Option (List α × List Nat) :=
  (h.find? i).map (fun d => (d.values, d.children))

/-! ## Basic arena lemmas -/

theorem findPair_map_set (l : List (Nat × NodeData α)) (i j : Nat) (d : NodeData α) :
    (l.map (fun p => if p.1 == i then (i, d) else p)).find? (fun p => p.1 == j)
      = if j = i then ((l.find? (fun p => p.1 == i)).map (fun _ => (i, d)))
        else l.find? (fun p => p.1 == j) := by
  induction l with
  | nil => by_cases hji : j = i <;> simp [hji]
  | cons p l ih =>
      simp only [List.map_cons]
      by_cases hpi : p.1 = i
      · rw [if_pos (by simpa using hpi)]
        by_cases hji : j = i
        · subst hji
          rw [List.find?_cons_of_pos _ (by simp),
              List.find?_cons_of_pos _ (by simpa using hpi)]
          simp
        · rw [List.find?_cons_of_neg _ (by simpa using Ne.symm hji),
              if_neg hji,
              List.find?_cons_of_neg _ (by simp [hpi, Ne.symm hji])]
          rw [ih, if_neg hji]
      · rw [if_neg (by simpa using hpi)]
        by_cases hpj : p.1 = j
        · have hji : ¬ j = i := fun he => hpi (hpj.trans he)
          rw [List.find?_cons_of_pos _ (by simpa using hpj), if_neg hji,
              List.find?_cons_of_pos _ (by simpa using hpj)]
        · rw [List.find?_cons_of_neg _ (by simpa using hpj), ih]
          by_cases hji : j = i
          · rw [if_pos hji, if_pos hji,
                List.find?_cons_of_neg _ (by simpa using hpi)]
          · rw [if_neg hji, if_neg hji,
                List.find?_cons_of_neg _ (by simpa using hpj)]

theorem Heap.find?_setNode (h : Heap α) (i j : Nat) (d : NodeData α) :
    (h.setNode i d).find? j
      = if j = i then ((h.find? i).map (fun _ => d)) else h.find? j := by
  unfold Heap.find? Heap.setNode
  simp only [findPair_map_set]
  by_cases hji : j = i
  · simp only [if_pos hji]
    cases h.nodes.find? (fun p => p.1 == i) <;> simp
  · simp only [if_neg hji]

theorem Heap.find?_setNode_self (h : Heap α) (i : Nat) (d0 d : NodeData α)
    (hf : h.find? i = some d0) : (h.setNode i d).find? i = some d := by
  rw [Heap.find?_setNode, if_pos rfl, hf, Option.map_some']

theorem Heap.find?_setNode_ne (h : Heap α) {i j : Nat} (d : NodeData α)
    (hne : j ≠ i) : (h.setNode i d).find? j = h.find? j := by
  rw [Heap.find?_setNode, if_neg hne]

theorem Heap.find?_modifyNode_self (h : Heap α) (i : Nat) (f : NodeData α → NodeData α) :
    (h.modifyNode i f).find? i = (h.find? i).map f := by
  unfold Heap.modifyNode
  cases hf : h.find? i with
  | none => simp [hf]
  | some d => simp [Heap.find?_setNode_self h i d (f d) hf, hf]

theorem Heap.find?_modifyNode_ne (h : Heap α) {i j : Nat} (f : NodeData α → NodeData α)
    (hne : j ≠ i) : (h.modifyNode i f).find? j = h.find? j := by
  unfold Heap.modifyNode
  cases hf : h.find? i with
  | none => rfl
  | some d => exact Heap.find?_setNode_ne h (f d) hne

theorem Heap.find?_reparentAll_notMem (h : Heap α) (cs : List Nat) (nid : Nat)
    {j : Nat} (hj : j ∉ cs) : (h.reparentAll cs nid).find? j = h.find? j := by
  unfold Heap.reparentAll
  induction cs generalizing h with
  | nil => rfl
  | cons c cs ih =>
      simp only [List.foldl_cons]
      rw [ih _ (fun hm => hj (List.mem_cons_of_mem c hm))]
      exact Heap.find?_modifyNode_ne h _ (fun he => hj (he ▸ List.mem_cons_self c cs))

theorem Heap.find?_reparentAll_mem (h : Heap α) (cs : List Nat) (nid : Nat)
    {j : Nat} (hj : j ∈ cs) :
    (h.reparentAll cs nid).find? j =
      (h.find? j).map (fun d => { d with parent := some nid }) := by
  induction cs generalizing h with
  | nil => simp at hj
  | cons c cs ih =>
      show (Heap.reparentAll _ cs nid).find? j = _
      by_cases hmem : j ∈ cs
      · rw [ih _ hmem]
        by_cases hc : j = c
        · subst hc
          rw [Heap.find?_modifyNode_self]
          cases h.find? j <;> simp
        · rw [Heap.find?_modifyNode_ne h _ hc]
      · have hc : j = c := by
          rcases List.mem_cons.mp hj with h1 | h1
          · exact h1
          · exact absurd h1 hmem
        subst hc
        rw [Heap.find?_reparentAll_notMem _ _ _ hmem, Heap.find?_modifyNode_self]

theorem shapeAt_reparentAll (h : Heap α) (cs : List Nat) (nid : Nat) (j : Nat) :
    shapeAt (h.reparentAll cs nid) j = shapeAt h j := by
  unfold shapeAt
  by_cases hj : j ∈ cs
  · rw [Heap.find?_reparentAll_mem h cs nid hj]
    cases h.find? j <;> simp
  · rw [Heap.find?_reparentAll_notMem h cs nid hj]

theorem Heap.find?_mk_cons (i j : Nat) (dd : NodeData α) (l : List (Nat × NodeData α)) (k k' : Nat) :
    Heap.find? ⟨(i, dd) :: l, k⟩ j = if j = i then some dd else Heap.find? ⟨l, k'⟩ j := by
  unfold Heap.find?
  by_cases hji : j = i
  · subst hji
    rw [List.find?_cons_of_pos _ (by simp), if_pos rfl, Option.map_some']
  · rw [List.find?_cons_of_neg _ (by simpa using Ne.symm hji), if_neg hji]

theorem Heap.find?_irrel_nextId (l : List (Nat × NodeData α)) (k k' j : Nat) :
    Heap.find? ⟨l, k⟩ j = Heap.find? ⟨l, k'⟩ j := rfl

/-- C10: `transfer(parent_value_ix, adj_node, go_left, rotate_children)`
produces exactly the same heap as `rotate(parent_value_ix, adj_node,
go_left)`; the `rotate_children` argument has no effect on the outcome. -/
theorem c10_transfer_is_rotate :
    ∀ (β : Type) (h : Heap β) (nid parent_value_ix adjId : Nat) (go_left : Bool)
      (rotate_children : Bool),
      h.transfer nid parent_value_ix adjId go_left rotate_children
        = h.rotate nid parent_value_ix adjId go_left ∧
      h.transfer nid parent_value_ix adjId go_left rotate_children
        = h.transfer nid parent_value_ix adjId go_left (!rotate_children) :=
  fun _ _ _ _ _ _ _ => ⟨rfl, rfl⟩

/-- C2: on a node holding exactly `m` keys, `split()` lifts out the key at
index `⌊m/2⌋` as the median and returns a freshly allocated right node with
the same order and the same parent as the original; afterwards the
original keeps exactly the keys below index `⌊m/2⌋` and the children below
index `⌈(m+1)/2⌉`, the right node holds the keys after index `⌊m/2⌋` and
the children from index `⌈(m+1)/2⌉` on, and the median key occurs in
neither node. -/
theorem c2_split_spec (h : Heap ℕ) (nid : Nat) (n : NodeData ℕ)
    (hn : h.find? nid = some n)
    (hm : n.values.length = n.tree_order)
    (hpos : 0 < n.tree_order)
    (hnd : n.values.Nodup)
    (hselfchild : nid ∉ n.children)
    (hfreshchild : h.nextId ∉ n.children)
    (hfresh : h.find? h.nextId = none) :
    ∃ median h',
      h.split nid = some (median, h.nextId, h') ∧
      n.values.get? (n.tree_order / 2) = some median ∧
      h'.find? nid = some { n with
        values := n.values.take (n.tree_order / 2),
        children := n.children.take ((n.tree_order + 2) / 2) } ∧
      h'.find? h.nextId = some
        ⟨n.tree_order, n.children.drop ((n.tree_order + 2) / 2),
         n.values.drop (n.tree_order / 2 + 1), n.parent⟩ ∧
      median ∉ n.values.take (n.tree_order / 2) ∧
      median ∉ n.values.drop (n.tree_order / 2 + 1) := by
  have hne : nid ≠ h.nextId := fun he => by rw [he, hfresh] at hn; exact Option.noConfusion hn
  have hlt : n.split_value_ix < n.values.length := by
    unfold NodeData.split_value_ix
    rw [hm]
    exact Nat.div_lt_self hpos (by norm_num)
  have hget : n.values.get? n.split_value_ix = some (n.values.get ⟨n.split_value_ix, hlt⟩) :=
    List.get?_eq_get hlt
  set median := n.values.get ⟨n.split_value_ix, hlt⟩ with hmdef
  have hdropcons : n.values.drop n.split_value_ix
      = median :: n.values.drop (n.split_value_ix + 1) := by
    rw [List.drop_eq_getElem_cons hlt]
    rw [hmdef, List.get_eq_getElem]
  set h1 := h.setNode nid { n with
    children := n.children.take n.split_child_ix,
    values := n.values.take n.split_value_ix } with hh1
  set h2 : Heap ℕ := ⟨(h.nextId, ⟨n.tree_order, n.children.drop n.split_child_ix,
    n.values.drop (n.split_value_ix + 1), n.parent⟩) :: h1.nodes, h.nextId + 1⟩ with hh2
  set h3 := h2.reparentAll (n.children.drop n.split_child_ix) h.nextId with hh3
  have hsix : n.split_value_ix = n.tree_order / 2 := rfl
  have hcix : n.split_child_ix = (n.tree_order + 2) / 2 := rfl
  refine ⟨median, h3, ?_, ?_, ?_, ?_, ?_, ?_⟩
  · unfold Heap.split Heap.createNode
    rw [hn]
    simp only [Option.pure_def, Option.bind_eq_bind, Option.some_bind, hget]
    rfl
  · rw [← hsix]
    exact hget
  · rw [hh3, Heap.find?_reparentAll_notMem _ _ _
      (fun hmem => hselfchild (List.mem_of_mem_drop hmem)), hh2,
      Heap.find?_mk_cons _ _ _ _ _ h1.nextId, if_neg hne]
    show h1.find? nid = _
    rw [hh1, Heap.find?_setNode_self h nid n _ hn, hsix, hcix]
  · rw [hh3, Heap.find?_reparentAll_notMem _ _ _
      (fun hmem => hfreshchild (List.mem_of_mem_drop hmem)), hh2,
      Heap.find?_mk_cons _ _ _ _ _ 0, if_pos rfl, hsix, hcix]
  · rw [← hsix]
    intro hmem
    have hnd' := hnd
    rw [← List.take_append_drop n.split_value_ix n.values] at hnd'
    have hdisj := List.disjoint_of_nodup_append hnd'
    exact hdisj hmem (by rw [hdropcons]; exact List.mem_cons_self _ _)
  · rw [← hsix]
    intro hmem
    have hnd2 : (n.values.drop n.split_value_ix).Nodup := hnd.sublist (List.drop_sublist _ _)
    rw [hdropcons] at hnd2
    exact (List.nodup_cons.mp hnd2).1 hmem

theorem c2_split_spec_witness :
    ∃ median h',
      Heap.split (⟨[(0, ⟨4, [], [1, 2, 3, 4], none⟩)], 1⟩ : Heap ℕ) 0
        = some (median, 1, h') ∧
      ([1, 2, 3, 4] : List ℕ).get? 2 = some median ∧
      h'.find? 0 = some ⟨4, [], [1, 2], none⟩ ∧
      h'.find? 1 = some ⟨4, [], [4], none⟩ ∧
      median ∉ ([1, 2] : List ℕ) ∧
      median ∉ ([4] : List ℕ) :=
  c2_split_spec ⟨[(0, ⟨4, [], [1, 2, 3, 4], none⟩)], 1⟩ 0 ⟨4, [], [1, 2, 3, 4], none⟩
    (by decide) (by decide) (by decide) (by decide) (by decide) (by decide) (by decide)

/-- Full characterization of `merge` with `go_left = true`: the resulting
heap record by record. -/
theorem Heap.merge_left_spec (h : Heap α) (nid child_ix parent_value_ix adjId pid : Nat)
    (s p a : NodeData α) (sep : α)
    (hs : h.find? nid = some s) (hpar : s.parent = some pid)
    (hp : h.find? pid = some p) (ha : h.find? adjId = some a)
    (hnp : nid ≠ pid) (han : adjId ≠ nid) (hap : adjId ≠ pid)
    (hsep : p.values.get? parent_value_ix = some sep) :
    ∃ h', h.merge nid child_ix parent_value_ix adjId true = some h' ∧
      h'.find? pid = some { p with values := p.values.eraseIdx parent_value_ix,
                                   children := p.children.eraseIdx (child_ix - 1) } ∧
      h'.find? nid = some { s with values := a.values ++ sep :: s.values,
                                   children := a.children ++ s.children } ∧
      (∀ j, j ≠ pid → j ≠ nid → h'.find? j = h.find? j) ∧
      h'.nextId = h.nextId := by
  unfold Heap.merge
  rw [hs]
  simp only [Option.pure_def, Option.bind_eq_bind, Option.some_bind, hpar, hp, hsep]
  set h1 := h.setNode pid { p with values := p.values.eraseIdx parent_value_ix } with hh1
  have ha1 : h1.find? adjId = some a := by rw [hh1, Heap.find?_setNode_ne h _ hap]; exact ha
  have hs1 : h1.find? nid = some s := by rw [hh1, Heap.find?_setNode_ne h _ hnp]; exact hs
  rw [ha1, hs1]
  simp only [Option.some_bind]
  set merged : NodeData α := { s with values := a.values ++ sep :: s.values,
                                      children := a.children ++ s.children } with hmerged
  set h2 := h1.setNode nid merged with hh2
  have hp2 : h2.find? pid = some { p with values := p.values.eraseIdx parent_value_ix } := by
    rw [hh2, Heap.find?_setNode_ne h1 _ (Ne.symm hnp), hh1,
      Heap.find?_setNode_self h pid p _ hp]
  rw [hp2]
  simp only [Option.some_bind]
  refine ⟨_, rfl, ?_, ?_, ?_, rfl⟩
  · rw [Heap.find?_setNode_self _ pid { p with values := p.values.eraseIdx parent_value_ix } _ hp2]
  · rw [Heap.find?_setNode_ne _ _ hnp, hh2, Heap.find?_setNode_self h1 nid s _ hs1]
    simp [hmerged, hpar]
  · intro j hjp hjn
    rw [Heap.find?_setNode_ne _ _ hjp, hh2, Heap.find?_setNode_ne _ _ hjn, hh1,
      Heap.find?_setNode_ne _ _ hjp]

/-- Full characterization of `merge` with `go_left = false`. -/
theorem Heap.merge_right_spec (h : Heap α) (nid child_ix parent_value_ix adjId pid : Nat)
    (s p a : NodeData α) (sep : α)
    (hs : h.find? nid = some s) (hpar : s.parent = some pid)
    (hp : h.find? pid = some p) (ha : h.find? adjId = some a)
    (hnp : nid ≠ pid) (han : adjId ≠ nid) (hap : adjId ≠ pid)
    (hsep : p.values.get? parent_value_ix = some sep) :
    ∃ h', h.merge nid child_ix parent_value_ix adjId false = some h' ∧
      h'.find? pid = some { p with values := p.values.eraseIdx parent_value_ix,
                                   children := p.children.eraseIdx (child_ix + 1) } ∧
      h'.find? nid = some { s with values := s.values ++ sep :: a.values,
                                   children := s.children ++ a.children } ∧
      (∀ j, j ≠ pid → j ≠ nid → h'.find? j = h.find? j) ∧
      h'.nextId = h.nextId := by
  unfold Heap.merge
  rw [hs]
  simp only [Option.pure_def, Option.bind_eq_bind, Option.some_bind, hpar, hp, hsep]
  set h1 := h.setNode pid { p with values := p.values.eraseIdx parent_value_ix } with hh1
  have ha1 : h1.find? adjId = some a := by rw [hh1, Heap.find?_setNode_ne h _ hap]; exact ha
  have hs1 : h1.find? nid = some s := by rw [hh1, Heap.find?_setNode_ne h _ hnp]; exact hs
  rw [ha1, hs1]
  simp only [Option.some_bind]
  set merged : NodeData α := { s with values := s.values ++ sep :: a.values,
                                      children := s.children ++ a.children } with hmerged
  set h2 := h1.setNode nid merged with hh2
  have hp2 : h2.find? pid = some { p with values := p.values.eraseIdx parent_value_ix } := by
    rw [hh2, Heap.find?_setNode_ne h1 _ (Ne.symm hnp), hh1,
      Heap.find?_setNode_self h pid p _ hp]
  rw [hp2]
  simp only [Option.some_bind]
  refine ⟨_, rfl, ?_, ?_, ?_, rfl⟩
  · rw [Heap.find?_setNode_self _ pid { p with values := p.values.eraseIdx parent_value_ix } _ hp2]
  · rw [Heap.find?_setNode_ne _ _ hnp, hh2, Heap.find?_setNode_self h1 nid s _ hs1]
    simp [hmerged, hpar]
  · intro j hjp hjn
    rw [Heap.find?_setNode_ne _ _ hjp, hh2, Heap.find?_setNode_ne _ _ hjn, hh1,
      Heap.find?_setNode_ne _ _ hjp]

/-- C6: `merge(child_ix, parent_value_ix, adj_node, go_left)` removes the
separating key from the parent at `parent_value_ix`; the merged node's keys
become `adj.values ++ [pulled] ++ self.values` and its children
`adj.children ++ self.children` when `go_left` (mirrored otherwise); the
absorbed sibling's slot is dropped from the parent's child list; and the
parent ends with exactly one fewer key and one fewer child reference. -/
theorem c6_merge_spec (h : Heap ℕ) (nid child_ix parent_value_ix adjId pid : Nat)
    (go_left : Bool) (s p a : NodeData ℕ) (sep : ℕ)
    (hs : h.find? nid = some s) (hpar : s.parent = some pid)
    (hp : h.find? pid = some p) (ha : h.find? adjId = some a)
    (hnp : nid ≠ pid) (han : adjId ≠ nid) (hap : adjId ≠ pid)
    (hsep : p.values.get? parent_value_ix = some sep)
    (hadj : p.children.get? (if go_left then child_ix - 1 else child_ix + 1)
      = some adjId) :
    ∃ h', h.merge nid child_ix parent_value_ix adjId go_left = some h' ∧
      h'.find? pid = some { p with
        values := p.values.eraseIdx parent_value_ix,
        children := p.children.eraseIdx
          (if go_left then child_ix - 1 else child_ix + 1) } ∧
      h'.find? nid = some { s with
        values := if go_left then a.values ++ sep :: s.values
          else s.values ++ sep :: a.values,
        children := if go_left then a.children ++ s.children
          else s.children ++ a.children } ∧
      (p.values.eraseIdx parent_value_ix).length + 1 = p.values.length ∧
      (p.children.eraseIdx
        (if go_left then child_ix - 1 else child_ix + 1)).length + 1
        = p.children.length := by
  obtain ⟨hvlt, -⟩ := List.get?_eq_some.mp hsep
  obtain ⟨hclt, -⟩ := List.get?_eq_some.mp hadj
  cases go_left with
  | true =>
      obtain ⟨h', he, hp', hn', -, -⟩ :=
        Heap.merge_left_spec h nid child_ix parent_value_ix adjId pid s p a sep
          hs hpar hp ha hnp han hap hsep
      exact ⟨h', he, by simpa using hp', by simpa using hn',
        List.length_eraseIdx_add_one hvlt,
        List.length_eraseIdx_add_one (by simpa using hclt)⟩
  | false =>
      obtain ⟨h', he, hp', hn', -, -⟩ :=
        Heap.merge_right_spec h nid child_ix parent_value_ix adjId pid s p a sep
          hs hpar hp ha hnp han hap hsep
      exact ⟨h', he, by simpa using hp', by simpa using hn',
        List.length_eraseIdx_add_one hvlt,
        List.length_eraseIdx_add_one (by simpa using hclt)⟩

theorem c6_merge_spec_witness :
    ∃ h',
      Heap.merge (⟨[(10, ⟨4, [1, 2], [50], none⟩), (1, ⟨4, [3, 4], [10, 20], some 10⟩),
        (2, ⟨4, [5], [70], some 10⟩), (3, ⟨4, [], [5, 7], some 1⟩),
        (4, ⟨4, [], [15], some 1⟩), (5, ⟨4, [], [60], some 2⟩)], 11⟩ : Heap ℕ)
        2 1 0 1 true = some h' ∧
      h'.find? 10 = some ⟨4, [2], [], none⟩ ∧
      h'.find? 2 = some ⟨4, [3, 4, 5], [10, 20, 50, 70], some 10⟩ ∧
      (0 : ℕ) + 1 = 1 ∧
      (1 : ℕ) + 1 = 2 :=
  c6_merge_spec ⟨[(10, ⟨4, [1, 2], [50], none⟩), (1, ⟨4, [3, 4], [10, 20], some 10⟩),
      (2, ⟨4, [5], [70], some 10⟩), (3, ⟨4, [], [5, 7], some 1⟩),
      (4, ⟨4, [], [15], some 1⟩), (5, ⟨4, [], [60], some 2⟩)], 11⟩
    2 1 0 1 10 true ⟨4, [5], [70], some 10⟩ ⟨4, [1, 2], [50], none⟩
    ⟨4, [3, 4], [10, 20], some 10⟩ 50
    (by decide) (by decide) (by decide) (by decide) (by decide) (by decide)
    (by decide) (by decide) (by decide)

/-- C7 counterexample: immediately after `merge` returns, a child
transplanted from the absorbed sibling (node 3, moved from node 1 into
node 2 together with node 4) still carries its old parent reference
`some 1`, not the merged node `2`; re-parenting only happens later in
`_delete_min_order`'s loop. -/
theorem c7_merge_stale_parent_counterexample :
    ((Heap.merge (⟨[(10, ⟨4, [1, 2], [50], none⟩), (1, ⟨4, [3, 4], [10, 20], some 10⟩),
        (2, ⟨4, [5], [70], some 10⟩), (3, ⟨4, [], [5, 7], some 1⟩),
        (4, ⟨4, [], [15], some 1⟩), (5, ⟨4, [], [60], some 2⟩)], 11⟩ : Heap ℕ)
        2 1 0 1 true).bind
      (fun h' => (h'.find? 2).map NodeData.children) = some [3, 4, 5]) ∧
    ((Heap.merge (⟨[(10, ⟨4, [1, 2], [50], none⟩), (1, ⟨4, [3, 4], [10, 20], some 10⟩),
        (2, ⟨4, [5], [70], some 10⟩), (3, ⟨4, [], [5, 7], some 1⟩),
        (4, ⟨4, [], [15], some 1⟩), (5, ⟨4, [], [60], some 2⟩)], 11⟩ : Heap ℕ)
        2 1 0 1 true).bind
      (fun h' => (h'.find? 3).map NodeData.parent) = some (some 1)) ∧
    some (1 : Nat) ≠ some 2 := by decide

/-- C7 as amended: after the merge branch of the underflow resolver
`_delete_min_order` completes (the `merge` call followed by the
re-parenting loop), every child of the merged node — in particular every
child transplanted from the absorbed sibling — has its parent reference
equal to the merged node. -/
theorem c7_deleteMinOrder_reparents (fuel : Nat) (t : BTreeState ℕ)
    (child_ix nid pid lid : Nat) (s p l : NodeData ℕ) (sep : ℕ)
    (hs : t.heap.find? nid = some s)
    (hpar : s.parent = some pid)
    (hp : t.heap.find? pid = some p)
    (hl : t.heap.find? lid = some l)
    (hnp : nid ≠ pid) (hln : lid ≠ nid) (hlp : lid ≠ pid)
    (hcix : child_ix ≠ 0)
    (hleft : p.children.get? (child_ix - 1) = some lid)
    (hlmin : l.is_min_internal_order = true)
    (hrmin : ∀ rid r, p.children.get? (child_ix + 1) = some rid →
        t.heap.find? rid = some r → r.is_min_internal_order = true)
    (hsep : p.values.get? (child_ix - 1) = some sep)
    (hpnotc : pid ∉ l.children ++ s.children)
    (hpres : ∀ c ∈ l.children ++ s.children, (t.heap.find? c).isSome = true)
    (hcond : ¬ ((p.values.eraseIdx (child_ix - 1)).length = 0 ∨
        (p.parent.isNone = false ∧
         (p.values.eraseIdx (child_ix - 1)).length < (p.tree_order + 1) / 2 - 1))) :
    ∃ t', deleteMinOrder (fuel + 1) t child_ix nid = some t' ∧
      ∀ c ∈ l.children ++ s.children,
        (t'.heap.find? c).map NodeData.parent = some (some nid) := by
  obtain ⟨h1, hmerge, hp1, hn1, hframe, -⟩ :=
    Heap.merge_left_spec t.heap nid child_ix (child_ix - 1) lid pid s p l sep
      hs hpar hp hl hnp hln hlp hsep
  have hroot : s.is_root = false := by simp [NodeData.is_root, hpar]
  have hsib : t.heap.siblings nid child_ix
      = (some lid, p.children.get? (child_ix + 1)) := by
    unfold Heap.siblings
    rw [hs]
    simp only [Option.bind_some, hpar, Option.some_bind, hp]
    rw [if_neg hcix, hleft]
  have hn1c : h1.find? nid = some { s with
                                    values := l.values ++ sep :: s.values,
                                    children := l.children ++ s.children } := hn1
  refine ⟨{ t with heap := h1.reparentAll (l.children ++ s.children) nid }, ?_, ?_⟩
  · show deleteMinOrder (fuel + 1) t child_ix nid = _
    rw [deleteMinOrder]
    rw [hs]
    simp only [Option.some_bind, Option.bind_eq_bind, Option.pure_def, hroot,
      Bool.false_eq_true, if_false, hpar, hsib]
    simp only [Option.some_bind, hmerge, hn1c]
    have hpar1 : (h1.reparentAll (l.children ++ s.children) nid).find? pid
        = some { p with values := p.values.eraseIdx (child_ix - 1),
                        children := p.children.eraseIdx (child_ix - 1) } := by
      rw [Heap.find?_reparentAll_notMem _ _ _ hpnotc]
      exact hp1
    simp only [hpar1, Option.some_bind]
    split
    · next hcl =>
        exfalso
        rw [hl] at hcl
        simp [hlmin] at hcl
    · next =>
        split
        · next hcr =>
            exfalso
            cases hro : p.children.get? (child_ix + 1) with
            | none =>
                rw [hro] at hcr
                simp at hcr
            | some rid =>
                rw [hro] at hcr
                simp only [Option.some_bind] at hcr
                cases hrf : t.heap.find? rid with
                | none =>
                    rw [hrf] at hcr
                    simp at hcr
                | some r =>
                    rw [hrf] at hcr
                    simp [hrmin rid r hro hrf] at hcr
        · next =>
            split
            · next hcnd =>
                exfalso
                apply hcond
                simp only [NodeData.order, NodeData.is_root, NodeData.is_min_leaf_order,
                  NodeData.min_order, Bool.not_eq_true', decide_eq_true_eq] at hcnd
                exact hcnd
            · next => rfl
  · intro c hc
    rw [show ({ t with heap := h1.reparentAll (l.children ++ s.children) nid } : BTreeState ℕ).heap
        = h1.reparentAll (l.children ++ s.children) nid from rfl,
      Heap.find?_reparentAll_mem _ _ _ hc]
    by_cases hcn : c = nid
    · subst hcn
      rw [hn1c]
      rfl
    · have hcp : c ≠ pid := fun he => hpnotc (he ▸ hc)
      rw [hframe c hcp hcn]
      have := hpres c hc
      cases hf : t.heap.find? c with
      | none => rw [hf] at this; exact absurd this (by simp)
      | some d => rfl

theorem c7_deleteMinOrder_reparents_witness :
    ∃ t', deleteMinOrder 10 (⟨⟨[(10, ⟨4, [1, 2], [50, 90], none⟩),
        (1, ⟨4, [3, 4], [30], some 10⟩), (2, ⟨4, [5], [70], some 10⟩),
        (3, ⟨4, [], [5, 7], some 1⟩), (4, ⟨4, [], [40], some 1⟩),
        (5, ⟨4, [], [60], some 2⟩)], 11⟩, 10, 4⟩ : BTreeState ℕ) 1 2 = some t' ∧
      ∀ c ∈ ([3, 4] : List ℕ) ++ [5],
        (t'.heap.find? c).map NodeData.parent = some (some 2) :=
  c7_deleteMinOrder_reparents 9
    ⟨⟨[(10, ⟨4, [1, 2], [50, 90], none⟩), (1, ⟨4, [3, 4], [30], some 10⟩),
      (2, ⟨4, [5], [70], some 10⟩), (3, ⟨4, [], [5, 7], some 1⟩),
      (4, ⟨4, [], [40], some 1⟩), (5, ⟨4, [], [60], some 2⟩)], 11⟩, 10, 4⟩
    1 2 10 1 ⟨4, [5], [70], some 10⟩ ⟨4, [1, 2], [50, 90], none⟩
    ⟨4, [3, 4], [30], some 10⟩ 50
    (by decide) (by decide) (by decide) (by decide) (by decide) (by decide)
    (by decide) (by decide) (by decide) (by decide)
    (by intro rid r hcontr; simp at hcontr)
    (by decide) (by decide) (by decide) (by decide)

/-- C5 counterexample: with order 4, inserting `10, 20, 30, 40` makes the
root split at the insertion of `40`, but the promoted median is `30`
(`values[⌊4/2⌋] = values[2]`), not `20`: the root afterwards holds `[30]`,
not `[20]`. -/
theorem c5_scenario_counterexample :
    ((((treeInsert 20 (mkBTree ℕ 4) 10).bind (fun t => treeInsert 20 t 20)).bind
        (fun t => treeInsert 20 t 30)).bind (fun t => treeInsert 20 t 40)).bind
      (fun t => (t.heap.find? t.root).map NodeData.values) = some [30] ∧
    some [30] ≠ some [20] := by decide

/-- C5 as amended: with order 4, inserting `10, 20, 30, 40, 50` in order
splits the root at the insertion of `40`, promoting the median `30`; the
root then holds `[30]` with left leaf `[10, 20]` (id 0) and right leaf
`[40]` (id 1); inserting `50` lands in the right leaf making `[40, 50]`
(2 keys, below capacity 3) and triggers no further split: the root id,
the root record, the left leaf and the allocation counter are unchanged
by the fifth insertion. -/
theorem c5_scenario_amended :
    (((((treeInsert 20 (mkBTree ℕ 4) 10).bind (fun t => treeInsert 20 t 20)).bind
        (fun t => treeInsert 20 t 30)).bind (fun t => treeInsert 20 t 40)).map
      (fun t => (t.root, t.heap.nextId)) = some (2, 3)) ∧
    (((((treeInsert 20 (mkBTree ℕ 4) 10).bind (fun t => treeInsert 20 t 20)).bind
        (fun t => treeInsert 20 t 30)).bind (fun t => treeInsert 20 t 40)).bind
      (fun t => (t.heap.find? 2).map (fun d => (d.values, d.children)))
        = some ([30], [0, 1])) ∧
    (((((treeInsert 20 (mkBTree ℕ 4) 10).bind (fun t => treeInsert 20 t 20)).bind
        (fun t => treeInsert 20 t 30)).bind (fun t => treeInsert 20 t 40)).bind
      (fun t => (t.heap.find? 0).map NodeData.values) = some [10, 20]) ∧
    (((((treeInsert 20 (mkBTree ℕ 4) 10).bind (fun t => treeInsert 20 t 20)).bind
        (fun t => treeInsert 20 t 30)).bind (fun t => treeInsert 20 t 40)).bind
      (fun t => (t.heap.find? 1).map NodeData.values) = some [40]) ∧
    ((((((treeInsert 20 (mkBTree ℕ 4) 10).bind (fun t => treeInsert 20 t 20)).bind
        (fun t => treeInsert 20 t 30)).bind (fun t => treeInsert 20 t 40)).bind
        (fun t => treeInsert 20 t 50)).map
      (fun t => (t.root, t.heap.nextId)) = some (2, 3)) ∧
    ((((((treeInsert 20 (mkBTree ℕ 4) 10).bind (fun t => treeInsert 20 t 20)).bind
        (fun t => treeInsert 20 t 30)).bind (fun t => treeInsert 20 t 40)).bind
        (fun t => treeInsert 20 t 50)).bind
      (fun t => (t.heap.find? 2).map (fun d => (d.values, d.children)))
        = some ([30], [0, 1])) ∧
    ((((((treeInsert 20 (mkBTree ℕ 4) 10).bind (fun t => treeInsert 20 t 20)).bind
        (fun t => treeInsert 20 t 30)).bind (fun t => treeInsert 20 t 40)).bind
        (fun t => treeInsert 20 t 50)).bind
      (fun t => (t.heap.find? 0).map NodeData.values) = some [10, 20]) ∧
    ((((((treeInsert 20 (mkBTree ℕ 4) 10).bind (fun t => treeInsert 20 t 20)).bind
        (fun t => treeInsert 20 t 30)).bind (fun t => treeInsert 20 t 40)).bind
        (fun t => treeInsert 20 t 50)).bind
      (fun t => (t.heap.find? 1).map NodeData.values) = some [40, 50]) :=
  ⟨by decide, by decide, by decide, by decide, by decide, by decide, by decide,
    by decide⟩

theorem Heap.nextId_setNode (h : Heap α) (i : Nat) (d : NodeData α) :
    (h.setNode i d).nextId = h.nextId := rfl

theorem Heap.nextId_modifyNode (h : Heap α) (i : Nat) (f : NodeData α → NodeData α) :
    (h.modifyNode i f).nextId = h.nextId := by
  unfold Heap.modifyNode
  cases h.find? i <;> rfl

theorem Heap.nextId_reparentAll (h : Heap α) (cs : List Nat) (nid : Nat) :
    (h.reparentAll cs nid).nextId = h.nextId := by
  unfold Heap.reparentAll
  induction cs generalizing h with
  | nil => rfl
  | cons c cs ih => rw [List.foldl_cons, ih, Heap.nextId_modifyNode]

/-- Full characterization of `split` including the frame: only the split
node, the fresh right node, and the moved children change. -/
theorem Heap.split_spec (h : Heap α) (nid : Nat) (n : NodeData α) (median : α)
    (hn : h.find? nid = some n)
    (hmed : n.values.get? n.split_value_ix = some median)
    (hnc : nid ∉ n.children.drop n.split_child_ix)
    (hfc : h.nextId ∉ n.children.drop n.split_child_ix)
    (hfresh : nid ≠ h.nextId) :
    ∃ h', h.split nid = some (median, h.nextId, h') ∧
      h'.find? nid = some { n with children := n.children.take n.split_child_ix,
                                   values := n.values.take n.split_value_ix } ∧
      h'.find? h.nextId = some ⟨n.tree_order, n.children.drop n.split_child_ix,
        n.values.drop (n.split_value_ix + 1), n.parent⟩ ∧
      (∀ j, j ≠ nid → j ≠ h.nextId → j ∉ n.children.drop n.split_child_ix →
        h'.find? j = h.find? j) ∧
      h'.nextId = h.nextId + 1 := by
  set h1 := h.setNode nid { n with children := n.children.take n.split_child_ix,
                                   values := n.values.take n.split_value_ix } with hh1
  set h2 : Heap α := ⟨(h.nextId, ⟨n.tree_order, n.children.drop n.split_child_ix,
    n.values.drop (n.split_value_ix + 1), n.parent⟩) :: h1.nodes, h.nextId + 1⟩ with hh2
  set h3 := h2.reparentAll (n.children.drop n.split_child_ix) h.nextId with hh3
  refine ⟨h3, ?_, ?_, ?_, ?_, ?_⟩
  · unfold Heap.split Heap.createNode
    rw [hn]
    simp only [Option.pure_def, Option.bind_eq_bind, Option.some_bind, hmed]
    rfl
  · rw [hh3, Heap.find?_reparentAll_notMem _ _ _ hnc, hh2,
      Heap.find?_mk_cons _ _ _ _ _ h1.nextId, if_neg hfresh]
    show h1.find? nid = _
    rw [hh1, Heap.find?_setNode_self h nid n _ hn]
  · rw [hh3, Heap.find?_reparentAll_notMem _ _ _ hfc, hh2,
      Heap.find?_mk_cons _ _ _ _ _ 0, if_pos rfl]
  · intro j hjn hjf hjc
    rw [hh3, Heap.find?_reparentAll_notMem _ _ _ hjc, hh2,
      Heap.find?_mk_cons _ _ _ _ _ h1.nextId, if_neg hjf]
    show h1.find? j = _
    rw [hh1, Heap.find?_setNode_ne h _ hjn]
  · rw [hh3, Heap.nextId_reparentAll, hh2]

/-- C4 counterexample: with order 3, calling `split_insert` on the
over-full leaf 0 (keys `[1, 2, 3]`) under the full root 1 (keys
`[10, 20]`) propagates the split to the root; the call returns node 1,
the root that was split last, not the original leaf 0. -/
theorem c4_splitInsert_counterexample :
    ((splitInsert 10 (⟨⟨[(1, ⟨3, [0, 2, 3], [10, 20], none⟩),
        (0, ⟨3, [], [1, 2, 3], some 1⟩), (2, ⟨3, [], [15], some 1⟩),
        (3, ⟨3, [], [30], some 1⟩)], 4⟩, 1, 3⟩ : BTreeState ℕ) 0).map
      (fun r => r.2) = some 1) ∧ (1 : Nat) ≠ 0 := by decide

/-- C4 as amended: `split_insert(node)` returns the original (left) node
exactly when, after receiving the promoted median, the parent (or the
newly created root) is not over capacity; recursion occurs exactly when
the parent is over capacity, and in that case the call returns the result
of `split_insert(parent)` — the left node of the topmost split — not the
original node. -/
theorem c4_splitInsert_return (fuel : Nat) (t : BTreeState ℕ) (nid : Nat)
    (n : NodeData ℕ) (median : ℕ)
    (hn : t.heap.find? nid = some n)
    (hmed : n.values.get? n.split_value_ix = some median)
    (hnc : nid ∉ n.children.drop n.split_child_ix)
    (hfc : t.heap.nextId ∉ n.children.drop n.split_child_ix)
    (hfresh : nid ≠ t.heap.nextId) :
    (∀ pid p, n.parent = some pid →
      t.heap.find? pid = some p →
      nid ≠ pid → pid ≠ t.heap.nextId →
      pid ∉ n.children.drop n.split_child_ix →
      ((¬ p.tree_order ≤ p.values.length + 1 →
          ∃ t1, splitInsert (fuel + 1) t nid = some (t1, nid)) ∧
       (p.tree_order ≤ p.values.length + 1 →
          ∃ t1, splitInsert (fuel + 1) t nid = splitInsert fuel t1 pid ∧
            t1.heap.find? pid = some { p with
              values := p.values.insertIdx (getNodeIx p median) median,
              children := p.children.insertIdx (getNodeIx p median + 1)
                t.heap.nextId }))) ∧
    (n.parent = none → 1 < t.order → nid ≠ t.heap.nextId + 1 →
      ∃ t1, splitInsert (fuel + 1) t nid = some (t1, nid)) := by
  obtain ⟨h', hsp, hnleft, hrightrec, hframe, hnext⟩ :=
    Heap.split_spec t.heap nid n median hn hmed hnc hfc hfresh
  constructor
  · intro pid p hpar hp hnp hpf hpc
    have hp' : h'.find? pid = some p := by
      rw [hframe pid (Ne.symm hnp) hpf hpc]
      exact hp
    have hwalk : splitInsert (fuel + 1) t nid
        = (if ({ p with
            values := p.values.insertIdx (getNodeIx p median) median,
            children := p.children.insertIdx (getNodeIx p median + 1)
              t.heap.nextId } : NodeData ℕ).is_full
          then splitInsert fuel
            { t with heap := h'.setNode pid { p with
                values := p.values.insertIdx (getNodeIx p median) median,
                children := p.children.insertIdx (getNodeIx p median + 1)
                  t.heap.nextId } } pid
          else some ({ t with heap := h'.setNode pid { p with
                values := p.values.insertIdx (getNodeIx p median) median,
                children := p.children.insertIdx (getNodeIx p median + 1)
                  t.heap.nextId } }, nid)) := by
      rw [splitInsert, hsp]
      simp only [Option.pure_def, Option.bind_eq_bind, Option.some_bind, hnleft]
      simp only [hpar, hp', Option.some_bind]
      rw [Heap.find?_setNode_self h' pid p _ hp']
      simp only [Option.some_bind]
    have hlen : (p.values.insertIdx (getNodeIx p median) median).length
        = p.values.length + 1 := by
      rw [List.length_insertIdx _ _ (by unfold getNodeIx; exact List.countP_le_length _)]
    have hfull : ({ p with
        values := p.values.insertIdx (getNodeIx p median) median,
        children := p.children.insertIdx (getNodeIx p median + 1)
          t.heap.nextId } : NodeData ℕ).is_full
        = decide (p.tree_order ≤ p.values.length + 1) := by
      unfold NodeData.is_full NodeData.order
      simp only [hlen]
    constructor
    · intro hnotfull
      refine ⟨{ t with heap := h'.setNode pid { p with
          values := p.values.insertIdx (getNodeIx p median) median,
          children := p.children.insertIdx (getNodeIx p median + 1)
            t.heap.nextId } }, ?_⟩
      rw [hwalk, hfull, if_neg (by simpa using hnotfull)]
    · intro hfullhyp
      refine ⟨{ t with heap := h'.setNode pid { p with
          values := p.values.insertIdx (getNodeIx p median) median,
          children := p.children.insertIdx (getNodeIx p median + 1)
            t.heap.nextId } }, ?_, ?_⟩
      · rw [hwalk, hfull, if_pos (by simpa using hfullhyp)]
      · show (h'.setNode pid _).find? pid = _
        rw [Heap.find?_setNode_self h' pid p _ hp']
  · intro hroot horder hn2
    have hwalk : splitInsert (fuel + 1) t nid
        = (if (⟨t.order, [nid, t.heap.nextId], [median], none⟩ : NodeData ℕ).is_full
          then splitInsert fuel
            { t with
              heap := Heap.reparentAll ⟨(h'.nextId,
                ⟨t.order, [nid, t.heap.nextId], [median], none⟩) :: h'.nodes,
                  h'.nextId + 1⟩ [nid, t.heap.nextId] h'.nextId,
              root := h'.nextId } h'.nextId
          else some ({ t with
              heap := Heap.reparentAll ⟨(h'.nextId,
                ⟨t.order, [nid, t.heap.nextId], [median], none⟩) :: h'.nodes,
                  h'.nextId + 1⟩ [nid, t.heap.nextId] h'.nextId,
              root := h'.nextId }, nid)) := by
      rw [splitInsert, hsp]
      simp only [Option.pure_def, Option.bind_eq_bind, Option.some_bind, hnleft]
      simp only [hroot, Heap.createNode]
      have hfind : (Heap.reparentAll ⟨(h'.nextId,
          ⟨t.order, [nid, t.heap.nextId], [median], none⟩) :: h'.nodes,
            h'.nextId + 1⟩ [nid, t.heap.nextId] h'.nextId).find? h'.nextId
          = some ⟨t.order, [nid, t.heap.nextId], [median], none⟩ := by
        rw [Heap.find?_reparentAll_notMem]
        · rw [Heap.find?_mk_cons _ _ _ _ _ 0, if_pos rfl]
        · intro hmem
          rcases List.mem_cons.mp hmem with he | he
          · exact hn2 (by rw [← he, hnext])
          · have hcontra : h'.nextId = t.heap.nextId := by simpa using he
            omega
      rw [hfind]
      simp only [Option.some_bind]
    have hnotfull : (⟨t.order, [nid, t.heap.nextId], [median], none⟩ : NodeData ℕ).is_full
        = false := by
      unfold NodeData.is_full NodeData.order
      simp only [List.length_cons, List.length_nil]
      simpa using by omega
    refine ⟨{ t with
        heap := Heap.reparentAll ⟨(h'.nextId,
          ⟨t.order, [nid, t.heap.nextId], [median], none⟩) :: h'.nodes,
            h'.nextId + 1⟩ [nid, t.heap.nextId] h'.nextId,
        root := h'.nextId }, ?_⟩
    rw [hwalk, hnotfull]
    simp

theorem c4_splitInsert_return_witness :
    (∀ pid p, (none : Option Nat) = some pid →
      (⟨⟨[(0, ⟨3, [], [1, 2, 3], none⟩)], 1⟩, 0, 3⟩
        : BTreeState ℕ).heap.find? pid = some p →
      (0 : Nat) ≠ pid → pid ≠ 1 → pid ∉ ([] : List Nat) →
      ((¬ p.tree_order ≤ p.values.length + 1 →
          ∃ t1, splitInsert 10
            (⟨⟨[(0, ⟨3, [], [1, 2, 3], none⟩)], 1⟩, 0, 3⟩ : BTreeState ℕ) 0
            = some (t1, 0)) ∧
       (p.tree_order ≤ p.values.length + 1 →
          ∃ t1, splitInsert 10
            (⟨⟨[(0, ⟨3, [], [1, 2, 3], none⟩)], 1⟩, 0, 3⟩ : BTreeState ℕ) 0
            = splitInsert 9 t1 pid ∧
            t1.heap.find? pid = some { p with
              values := p.values.insertIdx (getNodeIx p 2) 2,
              children := p.children.insertIdx (getNodeIx p 2 + 1) 1 }))) ∧
    ((none : Option Nat) = none → 1 < 3 → (0 : Nat) ≠ 2 →
      ∃ t1, splitInsert 10
        (⟨⟨[(0, ⟨3, [], [1, 2, 3], none⟩)], 1⟩, 0, 3⟩ : BTreeState ℕ) 0
        = some (t1, 0)) :=
  c4_splitInsert_return 9 ⟨⟨[(0, ⟨3, [], [1, 2, 3], none⟩)], 1⟩, 0, 3⟩ 0
    ⟨3, [], [1, 2, 3], none⟩ 2
    (by decide) (by decide) (by decide) (by decide) (by decide)

theorem mapM_get?_option {β : Type} (f : Nat → Option β) :
    ∀ (cs : List Nat) (ls : List β), cs.mapM f = some ls →
      ∀ (i : Nat) (x : Nat), cs.get? i = some x →
        ∃ y, f x = some y ∧ ls.get? i = some y := by
  intro cs
  induction cs with
  | nil => intro ls _ i x hx; simp at hx
  | cons c cs ih =>
      intro ls hm i x hx
      rw [List.mapM_cons] at hm
      cases hfc : f c with
      | none => rw [hfc] at hm; simp at hm
      | some y0 =>
          rw [hfc] at hm
          cases hms : cs.mapM f with
          | none => rw [hms] at hm; simp at hm
          | some ys =>
              rw [hms] at hm
              simp only [Option.pure_def, Option.bind_eq_bind, Option.some_bind] at hm
              obtain rfl : y0 :: ys = ls := by simpa using hm
              cases i with
              | zero =>
                  obtain rfl : c = x := by simpa using hx
                  exact ⟨y0, hfc, rfl⟩
              | succ i =>
                  obtain ⟨y, hy1, hy2⟩ := ih ys hms i x (by simpa using hx)
                  exact ⟨y, hy1, by simpa using hy2⟩

theorem locateAndRemove_notFound :
    ∀ (fuel : Nat) (t : BTreeState ℕ) (nid child_ix : Nat) (v : ℕ) (ks : List ℕ),
      subtreeKeys t.heap fuel nid = some ks →
      wfArity t.heap fuel nid = true →
      v ∉ ks →
      locateAndRemove fuel t nid child_ix v = some (DelRes.notFound t) := by
  intro fuel
  induction fuel with
  | zero => intro t nid cix v ks hk; simp [subtreeKeys] at hk
  | succ fuel ih =>
      intro t nid cix v ks hk hwf habs
      rw [subtreeKeys] at hk
      cases hd : t.heap.find? nid with
      | none => rw [hd] at hk; simp at hk
      | some d =>
          rw [hd] at hk
          simp only [Option.pure_def, Option.bind_eq_bind, Option.some_bind] at hk
          cases hls : d.children.mapM (subtreeKeys t.heap fuel) with
          | none => rw [hls] at hk; simp at hk
          | some ls =>
              rw [hls] at hk
              simp only [Option.some_bind] at hk
              obtain rfl : d.values ++ ls.flatten = ks := by simpa using hk
              rw [wfArity, hd] at hwf
              have hvals : ∀ w ∈ d.values, w ≠ v := by
                intro w hw he
                exact habs (he ▸ List.mem_append_left _ hw)
              have hmiss : ¬ (d.values.get? (getNodeIx d v) = some v) := by
                cases hg : d.values.get? (getNodeIx d v) with
                | none => simp
                | some w =>
                    have hwmem : w ∈ d.values := List.get?_mem hg
                    simp [hvals w hwmem]
              rw [locateAndRemove, hd]
              simp only [Option.pure_def, Option.bind_eq_bind, Option.some_bind]
              rw [if_neg hmiss]
              cases hleaf : d.is_leaf with
              | true => simp [hleaf]
              | false =>
                  simp only [hleaf, Bool.false_eq_true, if_false]
                  have hlen : d.children.length = d.values.length + 1 := by
                    unfold NodeData.is_leaf at hleaf
                    simp only [Bool.and_eq_true, Bool.or_eq_true, beq_iff_eq] at hwf
                    rcases hwf.1 with h1 | h1
                    · rw [hleaf] at h1; exact absurd h1 (by simp)
                    · exact h1
                  have hixlt : getNodeIx d v < d.children.length := by
                    rw [hlen]
                    have := List.countP_le_length (fun w => decide (w < v)) (l := d.values)
                    unfold getNodeIx
                    omega
                  obtain ⟨cid, hcid⟩ : ∃ cid, d.children.get? (getNodeIx d v) = some cid := by
                    rw [List.get?_eq_get hixlt]
                    exact ⟨_, rfl⟩
                  rw [hcid]
                  simp only [Option.some_bind]
                  obtain ⟨ksc, hksc, hlsc⟩ :=
                    mapM_get?_option (subtreeKeys t.heap fuel) d.children ls hls _ cid hcid
                  have hwfc : wfArity t.heap fuel cid = true := by
                    simp only [Bool.and_eq_true, List.all_eq_true] at hwf
                    exact hwf.2 cid (List.get?_mem hcid)
                  have habsc : v ∉ ksc := by
                    intro hmemc
                    exact habs (List.mem_append_right _
                      (List.mem_flatten.mpr ⟨ksc, List.get?_mem hlsc, hmemc⟩))
                  exact ih t cid (getNodeIx d v) v ksc hksc hwfc habsc

/-- C9: deleting a value not present in the tree reports `NotFoundError`
and leaves the tree unchanged — the state carried by the failure is the
input state itself.  The removal walk is the spec-modelled
`locate_and_remove` of spec section 6; the hypotheses ask that the key
collection and arity check succeed within the given fuel. -/
theorem c9_delete_absent (fuel : Nat) (t : BTreeState ℕ) (v : ℕ) (ks : List ℕ)
    (hkeys : subtreeKeys t.heap fuel t.root = some ks)
    (hwf : wfArity t.heap fuel t.root = true)
    (habs : v ∉ ks) :
    treeDelete fuel t v = some (DelRes.notFound t) :=
  locateAndRemove_notFound fuel t t.root 0 v ks hkeys hwf habs

theorem c9_delete_absent_witness :
    treeDelete 3 (⟨⟨[(2, ⟨4, [0, 1], [30], none⟩),
      (0, ⟨4, [], [10, 20], some 2⟩), (1, ⟨4, [], [40, 50], some 2⟩)], 3⟩, 2, 4⟩
        : BTreeState ℕ) 25
      = some (DelRes.notFound ⟨⟨[(2, ⟨4, [0, 1], [30], none⟩),
        (0, ⟨4, [], [10, 20], some 2⟩), (1, ⟨4, [], [40, 50], some 2⟩)], 3⟩, 2, 4⟩) :=
  c9_delete_absent 3 ⟨⟨[(2, ⟨4, [0, 1], [30], none⟩),
      (0, ⟨4, [], [10, 20], some 2⟩), (1, ⟨4, [], [40, 50], some 2⟩)], 3⟩, 2, 4⟩
    25 [30, 10, 20, 40, 50] (by decide) (by decide) (by decide)

theorem shapeAt_modifyNode_parent (h : Heap α) (i : Nat) (q : Option Nat) (j : Nat) :
    shapeAt (h.modifyNode i (fun d => { d with parent := q })) j = shapeAt h j := by
  unfold shapeAt
  by_cases hji : j = i
  · subst hji
    rw [Heap.find?_modifyNode_self]
    cases h.find? j <;> rfl
  · rw [Heap.find?_modifyNode_ne h _ hji]

theorem extract_congr_shape (h h' : Heap α)
    (hsh : ∀ j, shapeAt h' j = shapeAt h j) :
    ∀ (fuel i : Nat), extract h' fuel i = extract h fuel i := by
  intro fuel
  induction fuel with
  | zero => intro i; rfl
  | succ fuel ih =>
      intro i
      have hfun : extract h' fuel = extract h fuel := funext ih
      rw [extract, extract]
      have hshi := hsh i
      unfold shapeAt at hshi
      cases hd : h.find? i with
      | none =>
          rw [hd] at hshi
          simp only [Option.map_none'] at hshi
          cases hd' : h'.find? i with
          | none => rfl
          | some d' => rw [hd'] at hshi; simp at hshi
      | some d =>
          rw [hd] at hshi
          cases hd' : h'.find? i with
          | none => rw [hd'] at hshi; simp at hshi
          | some d' =>
              rw [hd'] at hshi
              simp only [Option.map_some'] at hshi
              have hv : d'.values = d.values := congrArg Prod.fst (Option.some.inj hshi)
              have hc : d'.children = d.children := congrArg Prod.snd (Option.some.inj hshi)
              simp only [Option.pure_def, Option.bind_eq_bind, Option.some_bind, hv, hc, hfun]

set_option maxHeartbeats 1000000 in
/-- C3: the underflow resolver borrows via `transfer` from the left
sibling when it exists and is above minimum occupancy, else from the right
sibling under the same test, and merges (left sibling preferred) only when
neither sibling can donate; invoked on the root, it promotes the sole
remaining child to tree root with its parent reference cleared, and the
tree height drops by exactly one. -/
theorem c3_deleteMinOrder_spec (fuel : Nat) (t : BTreeState ℕ) (child_ix nid : Nat)
    (node : NodeData ℕ)
    (hnode : t.heap.find? nid = some node) :
    (∀ c0 d0, node.parent = none → node.children = [c0] →
      t.heap.find? c0 = some d0 →
      deleteMinOrder (fuel + 1) t child_ix nid
        = some { t with root := c0,
                        heap := t.heap.modifyNode c0 (fun d => { d with parent := none }) } ∧
      (t.heap.modifyNode c0 (fun d => { d with parent := none })).find? c0
        = some { d0 with parent := none } ∧
      (∀ tc, extract t.heap fuel c0 = some tc →
        extract (t.heap.modifyNode c0 (fun d => { d with parent := none })) fuel c0
          = some tc ∧
        extract t.heap (fuel + 1) nid = some (PTree.node node.values [tc]) ∧
        (PTree.node node.values [tc]).height = tc.height + 1)) ∧
    (∀ pid p lid l, node.parent = some pid → t.heap.find? pid = some p →
      child_ix ≠ 0 → p.children.get? (child_ix - 1) = some lid →
      t.heap.find? lid = some l → l.is_min_internal_order = false →
      deleteMinOrder (fuel + 1) t child_ix nid
        = (t.heap.transfer nid (child_ix - 1) lid true true).map
            (fun h => { t with heap := h })) ∧
    (∀ pid p rid r, node.parent = some pid → t.heap.find? pid = some p →
      (∀ lid l, child_ix ≠ 0 → p.children.get? (child_ix - 1) = some lid →
        t.heap.find? lid = some l → l.is_min_internal_order = true) →
      p.children.get? (child_ix + 1) = some rid →
      t.heap.find? rid = some r → r.is_min_internal_order = false →
      deleteMinOrder (fuel + 1) t child_ix nid
        = (t.heap.transfer nid child_ix rid false true).map
            (fun h => { t with heap := h })) ∧
    (∀ pid p lid l, node.parent = some pid → t.heap.find? pid = some p →
      child_ix ≠ 0 → p.children.get? (child_ix - 1) = some lid →
      t.heap.find? lid = some l → l.is_min_internal_order = true →
      (∀ rid r, p.children.get? (child_ix + 1) = some rid →
        t.heap.find? rid = some r → r.is_min_internal_order = true) →
      nid ≠ pid → lid ≠ nid → lid ≠ pid →
      pid ∉ l.children ++ node.children →
      (∀ sep, p.values.get? (child_ix - 1) = some sep →
        ¬ ((p.values.eraseIdx (child_ix - 1)).length = 0 ∨
          (p.parent.isNone = false ∧
           (p.values.eraseIdx (child_ix - 1)).length < (p.tree_order + 1) / 2 - 1)) →
        ∃ h1, t.heap.merge nid child_ix (child_ix - 1) lid true = some h1 ∧
          deleteMinOrder (fuel + 1) t child_ix nid
            = some { t with heap :=
                h1.reparentAll (l.children ++ node.children) nid })) := by
  refine ⟨?_, ?_, ?_, ?_⟩
  · intro c0 d0 hroot hchild hc0
    have hisroot : node.is_root = true := by simp [NodeData.is_root, hroot]
    refine ⟨?_, ?_, ?_⟩
    · rw [deleteMinOrder, hnode]
      simp only [Option.pure_def, Option.bind_eq_bind, Option.some_bind, hisroot,
        if_true, hchild]
      rfl
    · rw [Heap.find?_modifyNode_self, hc0]
      rfl
    · intro tc htc
      refine ⟨?_, ?_, ?_⟩
      · rw [extract_congr_shape t.heap _ (fun j => shapeAt_modifyNode_parent _ _ _ _) fuel c0]
        exact htc
      · rw [extract, hnode]
        simp only [Option.pure_def, Option.bind_eq_bind, Option.some_bind, hchild]
        rw [List.mapM_cons, htc]
        rfl
      · rw [PTree.height]
        simp [Nat.add_comm]
  · intro pid p lid l hpar hp hcix hlid hl hlmin
    have hisroot : node.is_root = false := by simp [NodeData.is_root, hpar]
    have hsib : t.heap.siblings nid child_ix
        = (some lid, p.children.get? (child_ix + 1)) := by
      unfold Heap.siblings
      rw [hnode]
      simp only [Option.bind_some, hpar, Option.some_bind, hp]
      rw [if_neg hcix, hlid]
    rw [deleteMinOrder, hnode]
    simp only [Option.pure_def, Option.bind_eq_bind, Option.some_bind, hisroot,
      Bool.false_eq_true, if_false, hpar, hsib]
    split
    · next =>
        cases t.heap.transfer nid (child_ix - 1) lid true true <;> rfl
    · next hcl =>
        exfalso
        rw [hl] at hcl
        simp [hlmin] at hcl
  · intro pid p rid r hpar hp hlcant hrid hr hrmin
    have hisroot : node.is_root = false := by simp [NodeData.is_root, hpar]
    by_cases hz : child_ix = 0
    · have hsib : t.heap.siblings nid child_ix
          = (none, p.children.get? (child_ix + 1)) := by
        unfold Heap.siblings
        rw [hnode]
        simp only [Option.bind_some, hpar, Option.some_bind, hp]
        rw [if_pos hz]
      rw [deleteMinOrder, hnode]
      simp only [Option.pure_def, Option.bind_eq_bind, Option.some_bind]
      rw [hisroot]
      simp only [Bool.false_eq_true, if_false]
      rw [hpar]
      simp only [Option.some_bind]
      rw [hsib]
      split
      · next hcl =>
          exfalso
          simp at hcl
      · next =>
          split
          · next =>
              rw [hrid]
              cases htr : t.heap.transfer nid child_ix rid false true <;> simp [htr]
          · next hcr =>
              exfalso
              rw [hrid] at hcr
              simp [hr, hrmin] at hcr
    · have hsib : t.heap.siblings nid child_ix
          = (p.children.get? (child_ix - 1), p.children.get? (child_ix + 1)) := by
        unfold Heap.siblings
        rw [hnode]
        simp only [Option.bind_some, hpar, Option.some_bind, hp]
        rw [if_neg hz]
      rw [deleteMinOrder, hnode]
      simp only [Option.pure_def, Option.bind_eq_bind, Option.some_bind]
      rw [hisroot]
      simp only [Bool.false_eq_true, if_false]
      rw [hpar]
      simp only [Option.some_bind]
      rw [hsib]
      split
      · next hcl =>
          exfalso
          cases hlo : p.children.get? (child_ix - 1) with
          | none =>
              rw [hlo] at hcl
              simp at hcl
          | some lid =>
              rw [hlo] at hcl
              simp only [Option.some_bind] at hcl
              cases hlf : t.heap.find? lid with
              | none =>
                  rw [hlf] at hcl
                  simp at hcl
              | some l =>
                  rw [hlf] at hcl
                  simp [hlcant lid l hz hlo hlf] at hcl
      · next =>
          split
          · next =>
              rw [hrid]
              cases htr : t.heap.transfer nid child_ix rid false true <;> simp [htr]
          · next hcr =>
              exfalso
              rw [hrid] at hcr
              simp [hr, hrmin] at hcr
  · intro pid p lid l hpar hp hcix hlid hl hlmin hrcant hnp hln hlp hpnotc sep hsep hcond
    obtain ⟨h1, hmerge, hp1, hn1, hframe, -⟩ :=
      Heap.merge_left_spec t.heap nid child_ix (child_ix - 1) lid pid node p l sep
        hnode hpar hp hl hnp hln hlp hsep
    refine ⟨h1, hmerge, ?_⟩
    have hisroot : node.is_root = false := by simp [NodeData.is_root, hpar]
    have hsib : t.heap.siblings nid child_ix
        = (some lid, p.children.get? (child_ix + 1)) := by
      unfold Heap.siblings
      rw [hnode]
      simp only [Option.bind_some, hpar, Option.some_bind, hp]
      rw [if_neg hcix, hlid]
    have hn1c : h1.find? nid = some { node with
                                      values := l.values ++ sep :: node.values,
                                      children := l.children ++ node.children } := hn1
    rw [deleteMinOrder, hnode]
    simp only [Option.pure_def, Option.bind_eq_bind, Option.some_bind, hisroot,
      Bool.false_eq_true, if_false, hpar, hsib]
    simp only [Option.some_bind, hmerge, hn1c]
    have hpar1 : (h1.reparentAll (l.children ++ node.children) nid).find? pid
        = some { p with values := p.values.eraseIdx (child_ix - 1),
                        children := p.children.eraseIdx (child_ix - 1) } := by
      rw [Heap.find?_reparentAll_notMem _ _ _ hpnotc]
      exact hp1
    simp only [hpar1, Option.some_bind]
    split
    · next hcl =>
        exfalso
        rw [hl] at hcl
        simp [hlmin] at hcl
    · next =>
        split
        · next hcr =>
            exfalso
            cases hro : p.children.get? (child_ix + 1) with
            | none =>
                rw [hro] at hcr
                simp at hcr
            | some rid =>
                rw [hro] at hcr
                simp only [Option.some_bind] at hcr
                cases hrf : t.heap.find? rid with
                | none =>
                    rw [hrf] at hcr
                    simp at hcr
                | some r =>
                    rw [hrf] at hcr
                    simp [hrcant rid r hro hrf] at hcr
        · next =>
            split
            · next hcnd =>
                exfalso
                apply hcond
                simp only [NodeData.order, NodeData.is_root, NodeData.is_min_leaf_order,
                  NodeData.min_order, Bool.not_eq_true', decide_eq_true_eq] at hcnd
                exact hcnd
            · next => rfl

theorem c3_deleteMinOrder_spec_witness :
    (∀ c0 d0, (none : Option Nat) = none → ([1] : List Nat) = [c0] →
      (⟨⟨[(0, ⟨4, [1], [], none⟩), (1, ⟨4, [], [42], some 0⟩)], 2⟩, 0, 4⟩
        : BTreeState ℕ).heap.find? c0 = some d0 →
      deleteMinOrder 6 (⟨⟨[(0, ⟨4, [1], [], none⟩), (1, ⟨4, [], [42], some 0⟩)], 2⟩,
          0, 4⟩ : BTreeState ℕ) 0 0
        = some ⟨(⟨⟨[(0, ⟨4, [1], [], none⟩), (1, ⟨4, [], [42], some 0⟩)], 2⟩,
            0, 4⟩ : BTreeState ℕ).heap.modifyNode c0
              (fun d => { d with parent := none }), c0, 4⟩ ∧
      ((⟨⟨[(0, ⟨4, [1], [], none⟩), (1, ⟨4, [], [42], some 0⟩)], 2⟩, 0, 4⟩
          : BTreeState ℕ).heap.modifyNode c0
            (fun d => { d with parent := none })).find? c0
        = some { d0 with parent := none } ∧
      (∀ tc, extract (⟨⟨[(0, ⟨4, [1], [], none⟩), (1, ⟨4, [], [42], some 0⟩)], 2⟩,
          0, 4⟩ : BTreeState ℕ).heap 5 c0 = some tc →
        extract ((⟨⟨[(0, ⟨4, [1], [], none⟩), (1, ⟨4, [], [42], some 0⟩)], 2⟩,
            0, 4⟩ : BTreeState ℕ).heap.modifyNode c0
              (fun d => { d with parent := none })) 5 c0 = some tc ∧
        extract (⟨⟨[(0, ⟨4, [1], [], none⟩), (1, ⟨4, [], [42], some 0⟩)], 2⟩,
            0, 4⟩ : BTreeState ℕ).heap 6 0 = some (PTree.node [] [tc]) ∧
        (PTree.node ([] : List ℕ) [tc]).height = tc.height + 1)) ∧
    (∀ pid p lid l, (none : Option Nat) = some pid →
      (⟨⟨[(0, ⟨4, [1], [], none⟩), (1, ⟨4, [], [42], some 0⟩)], 2⟩, 0, 4⟩
        : BTreeState ℕ).heap.find? pid = some p →
      (0 : Nat) ≠ 0 → p.children.get? (0 - 1) = some lid →
      (⟨⟨[(0, ⟨4, [1], [], none⟩), (1, ⟨4, [], [42], some 0⟩)], 2⟩, 0, 4⟩
        : BTreeState ℕ).heap.find? lid = some l →
      l.is_min_internal_order = false →
      deleteMinOrder 6 (⟨⟨[(0, ⟨4, [1], [], none⟩), (1, ⟨4, [], [42], some 0⟩)], 2⟩,
          0, 4⟩ : BTreeState ℕ) 0 0
        = ((⟨⟨[(0, ⟨4, [1], [], none⟩), (1, ⟨4, [], [42], some 0⟩)], 2⟩, 0, 4⟩
            : BTreeState ℕ).heap.transfer 0 (0 - 1) lid true true).map
            (fun h => (⟨h, 0, 4⟩ : BTreeState ℕ))) ∧
    (∀ pid p rid r, (none : Option Nat) = some pid →
      (⟨⟨[(0, ⟨4, [1], [], none⟩), (1, ⟨4, [], [42], some 0⟩)], 2⟩, 0, 4⟩
        : BTreeState ℕ).heap.find? pid = some p →
      (∀ lid l, (0 : Nat) ≠ 0 → p.children.get? (0 - 1) = some lid →
        (⟨⟨[(0, ⟨4, [1], [], none⟩), (1, ⟨4, [], [42], some 0⟩)], 2⟩, 0, 4⟩
          : BTreeState ℕ).heap.find? lid = some l →
        l.is_min_internal_order = true) →
      p.children.get? (0 + 1) = some rid →
      (⟨⟨[(0, ⟨4, [1], [], none⟩), (1, ⟨4, [], [42], some 0⟩)], 2⟩, 0, 4⟩
        : BTreeState ℕ).heap.find? rid = some r →
      r.is_min_internal_order = false →
      deleteMinOrder 6 (⟨⟨[(0, ⟨4, [1], [], none⟩), (1, ⟨4, [], [42], some 0⟩)], 2⟩,
          0, 4⟩ : BTreeState ℕ) 0 0
        = ((⟨⟨[(0, ⟨4, [1], [], none⟩), (1, ⟨4, [], [42], some 0⟩)], 2⟩, 0, 4⟩
            : BTreeState ℕ).heap.transfer 0 0 rid false true).map
            (fun h => (⟨h, 0, 4⟩ : BTreeState ℕ))) ∧
    (∀ pid p lid l, (none : Option Nat) = some pid →
      (⟨⟨[(0, ⟨4, [1], [], none⟩), (1, ⟨4, [], [42], some 0⟩)], 2⟩, 0, 4⟩
        : BTreeState ℕ).heap.find? pid = some p →
      (0 : Nat) ≠ 0 → p.children.get? (0 - 1) = some lid →
      (⟨⟨[(0, ⟨4, [1], [], none⟩), (1, ⟨4, [], [42], some 0⟩)], 2⟩, 0, 4⟩
        : BTreeState ℕ).heap.find? lid = some l →
      l.is_min_internal_order = true →
      (∀ rid r, p.children.get? (0 + 1) = some rid →
        (⟨⟨[(0, ⟨4, [1], [], none⟩), (1, ⟨4, [], [42], some 0⟩)], 2⟩, 0, 4⟩
          : BTreeState ℕ).heap.find? rid = some r →
        r.is_min_internal_order = true) →
      (0 : Nat) ≠ pid → lid ≠ 0 → lid ≠ pid →
      pid ∉ l.children ++ ([1] : List Nat) →
      (∀ sep, p.values.get? (0 - 1) = some sep →
        ¬ ((p.values.eraseIdx (0 - 1)).length = 0 ∨
          (p.parent.isNone = false ∧
           (p.values.eraseIdx (0 - 1)).length < (p.tree_order + 1) / 2 - 1)) →
        ∃ h1, (⟨⟨[(0, ⟨4, [1], [], none⟩), (1, ⟨4, [], [42], some 0⟩)], 2⟩, 0, 4⟩
            : BTreeState ℕ).heap.merge 0 0 (0 - 1) lid true = some h1 ∧
          deleteMinOrder 6 (⟨⟨[(0, ⟨4, [1], [], none⟩),
              (1, ⟨4, [], [42], some 0⟩)], 2⟩, 0, 4⟩ : BTreeState ℕ) 0 0
            = some ⟨h1.reparentAll (l.children ++ ([1] : List Nat)) 0, 0, 4⟩)) :=
  c3_deleteMinOrder_spec 5
    ⟨⟨[(0, ⟨4, [1], [], none⟩), (1, ⟨4, [], [42], some 0⟩)], 2⟩, 0, 4⟩ 0 0
    ⟨4, [1], [], none⟩ (by decide)

theorem mapM_congr_mem {β γ : Type} {f g : β → Option γ} :
    ∀ (l : List β), (∀ x ∈ l, f x = g x) → l.mapM f = l.mapM g := by
  intro l
  induction l with
  | nil => intro _; rfl
  | cons c cs ih =>
      intro hfg
      rw [List.mapM_cons, List.mapM_cons, hfg c (List.mem_cons_self c cs),
        ih (fun x hx => hfg x (List.mem_cons_of_mem c hx))]

theorem mapM_mem_option {β γ : Type} {f : β → Option γ} :
    ∀ (l : List β) (ys : List γ), l.mapM f = some ys →
      ∀ x ∈ l, ∃ y, f x = some y ∧ y ∈ ys := by
  intro l
  induction l with
  | nil => intro ys _ x hx; simp at hx
  | cons c cs ih =>
      intro ys hm x hx
      rw [List.mapM_cons] at hm
      cases hfc : f c with
      | none => rw [hfc] at hm; simp at hm
      | some y0 =>
          rw [hfc] at hm
          cases hms : cs.mapM f with
          | none => rw [hms] at hm; simp at hm
          | some ys0 =>
              rw [hms] at hm
              simp only [Option.pure_def, Option.bind_eq_bind, Option.some_bind] at hm
              obtain rfl : y0 :: ys0 = ys := by simpa using hm
              rcases List.mem_cons.mp hx with rfl | hx
              · exact ⟨y0, hfc, List.mem_cons_self _ _⟩
              · obtain ⟨y, hy1, hy2⟩ := ih ys0 hms x hx
                exact ⟨y, hy1, List.mem_cons_of_mem _ hy2⟩

theorem mapM_perm_option {β γ : Type} {f : β → Option γ} :
    ∀ {l l' : List β}, l.Perm l' → ∀ {ys : List γ}, l.mapM f = some ys →
      ∃ ys', l'.mapM f = some ys' ∧ ys.Perm ys' := by
  intro l l' hperm
  induction hperm with
  | nil => intro ys hm; exact ⟨ys, hm, List.Perm.refl ys⟩
  | @cons x l1 l2 hp ih =>
      intro ys hm
      rw [List.mapM_cons] at hm
      cases hfx : f x with
      | none => rw [hfx] at hm; simp at hm
      | some y =>
          rw [hfx] at hm
          cases hms : l1.mapM f with
          | none => rw [hms] at hm; simp at hm
          | some ys0 =>
              rw [hms] at hm
              simp only [Option.pure_def, Option.bind_eq_bind, Option.some_bind] at hm
              obtain rfl : y :: ys0 = ys := by simpa using hm
              obtain ⟨ys', hm', hp'⟩ := ih hms
              exact ⟨y :: ys', by rw [List.mapM_cons, hfx, hm']; rfl,
                List.Perm.cons y hp'⟩
  | @swap a b l =>
      intro ys hm
      rw [List.mapM_cons] at hm
      cases hfb : f b with
      | none => rw [hfb] at hm; simp at hm
      | some yb =>
          rw [hfb, List.mapM_cons] at hm
          cases hfa : f a with
          | none => rw [hfa] at hm; simp at hm
          | some ya =>
              rw [hfa] at hm
              cases hms : l.mapM f with
              | none => rw [hms] at hm; simp at hm
              | some ys0 =>
                  rw [hms] at hm
                  simp only [Option.pure_def, Option.bind_eq_bind, Option.some_bind] at hm
                  obtain rfl : yb :: ya :: ys0 = ys := by simpa using hm
                  refine ⟨ya :: yb :: ys0, ?_, List.Perm.swap ya yb ys0⟩
                  rw [List.mapM_cons, hfa, List.mapM_cons, hfb, hms]
                  rfl
  | trans hp1 hp2 ih1 ih2 =>
      intro ys hm
      obtain ⟨ys1, hm1, hpa⟩ := ih1 hm
      obtain ⟨ys2, hm2, hpb⟩ := ih2 hm1
      exact ⟨ys2, hm2, hpa.trans hpb⟩

theorem idsOf_succ (h : Heap α) (fuel i : Nat) (L : List Nat)
    (hL : idsOf h (fuel + 1) i = some L) :
    ∃ d Ls, h.find? i = some d ∧ d.children.mapM (idsOf h fuel) = some Ls ∧
      L = i :: Ls.flatten := by
  rw [idsOf] at hL
  cases hd : h.find? i with
  | none => rw [hd] at hL; simp at hL
  | some d =>
      rw [hd] at hL
      simp only [Option.pure_def, Option.bind_eq_bind, Option.some_bind] at hL
      cases hm : d.children.mapM (idsOf h fuel) with
      | none => rw [hm] at hL; simp at hL
      | some Ls =>
          rw [hm] at hL
          simp only [Option.some_bind] at hL
          exact ⟨d, Ls, rfl, hm, by simpa using hL.symm⟩

theorem extract_congr_ids (h h' : Heap α) :
    ∀ (fuel i : Nat) (L : List Nat), idsOf h fuel i = some L →
      (∀ j ∈ L, shapeAt h' j = shapeAt h j) →
      extract h' fuel i = extract h fuel i := by
  intro fuel
  induction fuel with
  | zero => intro i L hL _; rfl
  | succ fuel ih =>
      intro i L hL hsh
      obtain ⟨d, Ls, hd, hm, rfl⟩ := idsOf_succ h fuel i L hL
      have hshi := hsh i (List.mem_cons_self _ _)
      unfold shapeAt at hshi
      rw [hd] at hshi
      cases hd' : h'.find? i with
      | none => rw [hd'] at hshi; simp at hshi
      | some d' =>
          rw [hd'] at hshi
          simp only [Option.map_some'] at hshi
          have hv : d'.values = d.values := congrArg Prod.fst (Option.some.inj hshi)
          have hc : d'.children = d.children := congrArg Prod.snd (Option.some.inj hshi)
          rw [extract, extract, hd, hd']
          simp only [Option.pure_def, Option.bind_eq_bind, Option.some_bind, hv, hc]
          have hcongr : d.children.mapM (extract h' fuel)
              = d.children.mapM (extract h fuel) := by
            apply mapM_congr_mem
            intro c hcmem
            obtain ⟨Lc, hLc, hLcmem⟩ := mapM_mem_option d.children Ls hm c hcmem
            exact ih c Lc hLc (fun j hj => hsh j
              (List.mem_cons_of_mem _ (List.mem_flatten.mpr ⟨Lc, hLcmem, hj⟩)))
          rw [hcongr]

theorem extract_succ (h : Heap α) (fuel i : Nat) (pt : PTree α)
    (hx : extract h (fuel + 1) i = some pt) :
    ∃ d ts, h.find? i = some d ∧ d.children.mapM (extract h fuel) = some ts ∧
      pt = PTree.node d.values ts := by
  rw [extract] at hx
  cases hd : h.find? i with
  | none => rw [hd] at hx; simp at hx
  | some d =>
      rw [hd] at hx
      simp only [Option.pure_def, Option.bind_eq_bind, Option.some_bind] at hx
      cases hm : d.children.mapM (extract h fuel) with
      | none => rw [hm] at hx; simp at hx
      | some ts =>
          rw [hm] at hx
          simp only [Option.some_bind] at hx
          exact ⟨d, ts, rfl, hm, by simpa using hx.symm⟩

theorem mapM_length_option {β γ : Type} {f : β → Option γ} :
    ∀ (l : List β) (ys : List γ), l.mapM f = some ys → ys.length = l.length := by
  intro l
  induction l with
  | nil => intro ys hm; simp only [List.mapM_nil] at hm; simpa using congrArg (Option.map List.length) hm.symm
  | cons c cs ih =>
      intro ys hm
      rw [List.mapM_cons] at hm
      cases hfc : f c with
      | none => rw [hfc] at hm; simp at hm
      | some y0 =>
          rw [hfc] at hm
          cases hms : cs.mapM f with
          | none => rw [hms] at hm; simp at hm
          | some ys0 =>
              rw [hms] at hm
              simp only [Option.pure_def, Option.bind_eq_bind, Option.some_bind] at hm
              obtain rfl : y0 :: ys0 = ys := by simpa using hm
              simp [ih ys0 hms]

theorem mapM_some_of_forall {β γ : Type} {f : β → Option γ} :
    ∀ (l : List β), (∀ x ∈ l, ∃ y, f x = some y) → ∃ ys, l.mapM f = some ys := by
  intro l
  induction l with
  | nil => intro _; exact ⟨[], rfl⟩
  | cons c cs ih =>
      intro hall
      obtain ⟨y, hy⟩ := hall c (List.mem_cons_self c cs)
      obtain ⟨ys, hys⟩ := ih (fun x hx => hall x (List.mem_cons_of_mem c hx))
      exact ⟨y :: ys, by rw [List.mapM_cons, hy, hys]; rfl⟩

theorem blocks_disjoint (h : Heap α) (fuel : Nat) (cs : List Nat)
    (Ls : List (List Nat)) (hm : cs.mapM (idsOf h (fuel + 1)) = some Ls)
    (hnd : Ls.flatten.Nodup) :
    ∀ {x y : Nat} {Lx Ly : List Nat}, x ∈ cs → y ∈ cs → x ≠ y →
      idsOf h (fuel + 1) x = some Lx → idsOf h (fuel + 1) y = some Ly →
      List.Disjoint Lx Ly := by
  intro x y Lx Ly hx hy hxy hLx hLy
  obtain ⟨kx, hkx⟩ := List.get?_of_mem hx
  obtain ⟨ky, hky⟩ := List.get?_of_mem hy
  have hkxy : kx ≠ ky := fun he => hxy (by rw [he] at hkx; exact Option.some.inj (hkx.symm.trans hky))
  obtain ⟨Bx, hBx, hBxg⟩ := mapM_get?_option _ cs Ls hm kx x hkx
  obtain ⟨By, hBy, hByg⟩ := mapM_get?_option _ cs Ls hm ky y hky
  rw [show Bx = Lx from Option.some.inj (hBx.symm.trans hLx)] at hBxg
  rw [show By = Ly from Option.some.inj (hBy.symm.trans hLy)] at hByg
  have hpw := (List.nodup_flatten.mp hnd).2
  have hkxlt := (List.get?_eq_some.mp hBxg).1
  have hkylt := (List.get?_eq_some.mp hByg).1
  have hgx : Ls.get ⟨kx, hkxlt⟩ = Lx := by
    have := List.get?_eq_get hkxlt
    rw [this] at hBxg
    exact Option.some.inj hBxg
  have hgy : Ls.get ⟨ky, hkylt⟩ = Ly := by
    have := List.get?_eq_get hkylt
    rw [this] at hByg
    exact Option.some.inj hByg
  rcases Nat.lt_or_ge kx ky with hlt | hge
  · have := List.pairwise_iff_get.mp hpw ⟨kx, hkxlt⟩ ⟨ky, hkylt⟩ hlt
    rw [hgx, hgy] at this
    exact this
  · have hlt2 : ky < kx := Nat.lt_of_le_of_ne hge (Ne.symm hkxy)
    have := List.pairwise_iff_get.mp hpw ⟨ky, hkylt⟩ ⟨kx, hkxlt⟩ hlt2
    rw [hgx, hgy] at this
    exact List.Disjoint.symm this

theorem block_subset_flatten {β : Type} {f : Nat → Option (List β)} (cs : List Nat)
    (Ls : List (List β)) (hm : cs.mapM f = some Ls) {x : Nat} {Lx : List β}
    (hx : x ∈ cs) (hLx : f x = some Lx) : ∀ j ∈ Lx, j ∈ Ls.flatten := by
  obtain ⟨B, hB, hBmem⟩ := mapM_mem_option cs Ls hm x hx
  rw [show B = Lx from Option.some.inj (hB.symm.trans hLx)] at hBmem
  intro j hj
  exact List.mem_flatten.mpr ⟨Lx, hBmem, hj⟩

theorem children_nodup_of_blocks (h : Heap α) (fuel : Nat) (cs : List Nat)
    (Ls : List (List Nat)) (hm : cs.mapM (idsOf h (fuel + 1)) = some Ls)
    (hnd : Ls.flatten.Nodup) : cs.Nodup := by
  rw [List.nodup_iff_get?_ne_get?]
  intro i j hij hjlen hcontra
  obtain ⟨x, hx⟩ : ∃ x, cs.get? i = some x := by
    rw [List.get?_eq_get (Nat.lt_trans hij hjlen)]
    exact ⟨_, rfl⟩
  obtain ⟨y, hy⟩ : ∃ y, cs.get? j = some y := by
    rw [List.get?_eq_get hjlen]
    exact ⟨_, rfl⟩
  obtain rfl : x = y := by rw [hx, hy] at hcontra; exact Option.some.inj hcontra
  obtain ⟨Bx, hBx, hBxg⟩ := mapM_get?_option _ cs Ls hm i x hx
  obtain ⟨By, hBy, hByg⟩ := mapM_get?_option _ cs Ls hm j x hy
  obtain rfl : Bx = By := Option.some.inj (hBx.symm.trans hBy)
  obtain ⟨d, Ls2, hd, hm2, rfl⟩ := idsOf_succ h fuel x Bx hBx
  have hpw := (List.nodup_flatten.mp hnd).2
  have hilt := (List.get?_eq_some.mp hBxg).1
  have hjlt := (List.get?_eq_some.mp hByg).1
  have hgx : Ls.get ⟨i, hilt⟩ = x :: Ls2.flatten := by
    have := List.get?_eq_get hilt
    rw [this] at hBxg
    exact Option.some.inj hBxg
  have hgy : Ls.get ⟨j, hjlt⟩ = x :: Ls2.flatten := by
    have := List.get?_eq_get hjlt
    rw [this] at hByg
    exact Option.some.inj hByg
  have hdisj := List.pairwise_iff_get.mp hpw ⟨i, hilt⟩ ⟨j, hjlt⟩ hij
  rw [hgx, hgy] at hdisj
  exact hdisj (List.mem_cons_self x _) (List.mem_cons_self x _)

theorem leafDepths_node (vs : List α) (cs : List (PTree α)) :
    PTree.leafDepths (.node vs cs) = if cs.isEmpty then {0}
      else (cs.map (fun c => Multiset.map (· + 1) (PTree.leafDepths c))).sum := by
  rw [PTree.leafDepths]
  congr 1
  exact congrArg List.sum
    (List.attach_map_val cs (fun c => Multiset.map (· + 1) (PTree.leafDepths c)))

theorem mapM_cons_some {β γ : Type} {f : β → Option γ} {x : β} {l : List β}
    {ys : List γ} (hm : (x :: l).mapM f = some ys) :
    ∃ y ys0, f x = some y ∧ l.mapM f = some ys0 ∧ ys = y :: ys0 := by
  rw [List.mapM_cons] at hm
  cases hfx : f x with
  | none => rw [hfx] at hm; simp at hm
  | some y =>
      rw [hfx] at hm
      cases hms : l.mapM f with
      | none => rw [hms] at hm; simp at hm
      | some ys0 =>
          rw [hms] at hm
          simp only [Option.pure_def, Option.bind_eq_bind, Option.some_bind] at hm
          have hys : y :: ys0 = ys := by simpa using hm
          exact ⟨y, ys0, rfl, rfl, hys.symm⟩

theorem leafDepths_move_child (h h' : Heap α) (fuel pid nid adjId mc : Nat)
    (L : List Nat) (p p' s s' a a' : NodeData α)
    (hL : idsOf h (fuel + 2) pid = some L) (hnd : L.Nodup)
    (hp : h.find? pid = some p) (hp' : h'.find? pid = some p')
    (hpc : p'.children = p.children)
    (hs : h.find? nid = some s) (hs' : h'.find? nid = some s')
    (hsc : s'.children.Perm (mc :: s.children))
    (ha : h.find? adjId = some a) (ha' : h'.find? adjId = some a')
    (hac : a.children.Perm (mc :: a'.children))
    (hmem_n : nid ∈ p.children) (hmem_a : adjId ∈ p.children) (hnadj : nid ≠ adjId)
    (hsleaf : s.children ≠ []) (haleaf : a'.children ≠ [])
    (hshape : ∀ j, j ≠ nid → j ≠ adjId → j ≠ pid → shapeAt h' j = shapeAt h j) :
    ∀ pt, extract h (fuel + 2) pid = some pt →
      ∃ pt', extract h' (fuel + 2) pid = some pt' ∧
        pt'.leafDepths = pt.leafDepths := by
  intro pt hpt
  obtain ⟨dp, Ls, hdp, hmLs, rfl⟩ := idsOf_succ h (fuel + 1) pid L hL
  rw [show dp = p from Option.some.inj (hdp.symm.trans hp)] at hmLs
  have hndf : Ls.flatten.Nodup := (List.nodup_cons.mp hnd).2
  have hpidflat : pid ∉ Ls.flatten := (List.nodup_cons.mp hnd).1
  obtain ⟨Ln, hLn, hLnmem⟩ := mapM_mem_option p.children Ls hmLs nid hmem_n
  obtain ⟨La, hLa, hLamem⟩ := mapM_mem_option p.children Ls hmLs adjId hmem_a
  have hdisjna : List.Disjoint Ln La :=
    blocks_disjoint h fuel p.children Ls hmLs hndf hmem_n hmem_a hnadj hLn hLa
  obtain ⟨ds, Hs, hds, hmHs, rfl⟩ := idsOf_succ h fuel nid Ln hLn
  rw [show ds = s from Option.some.inj (hds.symm.trans hs)] at hmHs
  obtain ⟨da, Ha, hda, hmHa, rfl⟩ := idsOf_succ h fuel adjId La hLa
  rw [show da = a from Option.some.inj (hda.symm.trans ha)] at hmHa
  have hLnnd : (nid :: Hs.flatten).Nodup := (List.nodup_flatten.mp hndf).1 _ hLnmem
  have hLand : (adjId :: Ha.flatten).Nodup := (List.nodup_flatten.mp hndf).1 _ hLamem
  have hcongr_other : ∀ c ∈ p.children, c ≠ nid → c ≠ adjId →
      extract h' (fuel + 1) c = extract h (fuel + 1) c := by
    intro c hc hcn hca
    obtain ⟨Lc, hLc, hLcmem⟩ := mapM_mem_option p.children Ls hmLs c hc
    apply extract_congr_ids h h' (fuel + 1) c Lc hLc
    intro j hj
    apply hshape
    · intro he
      subst he
      exact (blocks_disjoint h fuel p.children Ls hmLs hndf hc hmem_n hcn hLc hLn)
        hj (List.mem_cons_self _ _)
    · intro he
      subst he
      exact (blocks_disjoint h fuel p.children Ls hmLs hndf hc hmem_a hca hLc hLa)
        hj (List.mem_cons_self _ _)
    · intro he
      subst he
      exact hpidflat (block_subset_flatten p.children Ls hmLs hc hLc j hj)
  have hcongr_s : ∀ x ∈ s.children, extract h' fuel x = extract h fuel x := by
    intro x hx
    obtain ⟨Lx, hLx, hLxmem⟩ := mapM_mem_option s.children Hs hmHs x hx
    apply extract_congr_ids h h' fuel x Lx hLx
    intro j hj
    have hjLn : j ∈ nid :: Hs.flatten :=
      List.mem_cons_of_mem _ (List.mem_flatten.mpr ⟨Lx, hLxmem, hj⟩)
    apply hshape
    · intro he
      subst he
      exact (List.nodup_cons.mp hLnnd).1 (List.mem_flatten.mpr ⟨Lx, hLxmem, hj⟩)
    · intro he
      subst he
      exact hdisjna hjLn (List.mem_cons_self _ _)
    · intro he
      subst he
      exact hpidflat (block_subset_flatten p.children Ls hmLs hmem_n hLn j hjLn)
  have hcongr_a : ∀ x ∈ a.children, extract h' fuel x = extract h fuel x := by
    intro x hx
    obtain ⟨Lx, hLx, hLxmem⟩ := mapM_mem_option a.children Ha hmHa x hx
    apply extract_congr_ids h h' fuel x Lx hLx
    intro j hj
    have hjLa : j ∈ adjId :: Ha.flatten :=
      List.mem_cons_of_mem _ (List.mem_flatten.mpr ⟨Lx, hLxmem, hj⟩)
    apply hshape
    · intro he
      subst he
      exact hdisjna (List.mem_cons_self _ _) hjLa
    · intro he
      subst he
      exact (List.nodup_cons.mp hLand).1 (List.mem_flatten.mpr ⟨Lx, hLxmem, hj⟩)
    · intro he
      subst he
      exact hpidflat (block_subset_flatten p.children Ls hmLs hmem_a hLa j hjLa)
  obtain ⟨dp2, ts, hdp2, hmts, rfl⟩ := extract_succ h (fuel + 1) pid pt hpt
  rw [show dp2 = p from Option.some.inj (hdp2.symm.trans hp)] at hmts
  have hcsnd : p.children.Nodup := children_nodup_of_blocks h fuel p.children Ls hmLs hndf
  have hmem_a2 : adjId ∈ p.children.erase nid :=
    (List.Nodup.mem_erase_iff hcsnd).mpr ⟨Ne.symm hnadj, hmem_a⟩
  have hP : p.children.Perm (nid :: adjId :: (p.children.erase nid).erase adjId) :=
    (List.perm_cons_erase hmem_n).trans
      (List.Perm.cons nid (List.perm_cons_erase hmem_a2))
  have hrestmem : ∀ c ∈ (p.children.erase nid).erase adjId,
      c ∈ p.children ∧ c ≠ nid ∧ c ≠ adjId := by
    intro c hc
    have h1 := (List.Nodup.mem_erase_iff (hcsnd.erase nid)).mp hc
    have h2 := (List.Nodup.mem_erase_iff hcsnd).mp h1.2
    exact ⟨h2.2, h2.1, h1.1⟩
  obtain ⟨tsP, hmtsP, htsperm⟩ := mapM_perm_option hP hmts
  obtain ⟨tn, ts1, htn, hmts1, rfl⟩ := mapM_cons_some hmtsP
  obtain ⟨ta, trest, hta, hmtrest, rfl⟩ := mapM_cons_some hmts1
  obtain ⟨ds2, tsn, hds2, hmtsn, rfl⟩ := extract_succ h fuel nid tn htn
  rw [show ds2 = s from Option.some.inj (hds2.symm.trans hs)] at hmtsn htsperm
  obtain ⟨da2, tsa, hda2, hmtsa, rfl⟩ := extract_succ h fuel adjId ta hta
  rw [show da2 = a from Option.some.inj (hda2.symm.trans ha)] at hmtsa htsperm
  have hmcmem : mc ∈ a.children := hac.mem_iff.mpr (List.mem_cons_self _ _)
  obtain ⟨tmc, htmc, htmcmem⟩ := mapM_mem_option a.children tsa hmtsa mc hmcmem
  obtain ⟨tsaP, hmtsaP, htsaperm⟩ := mapM_perm_option hac hmtsa
  obtain ⟨tmc2, tsa2, htmc2, hma2, rfl⟩ := mapM_cons_some hmtsaP
  rw [show tmc2 = tmc from Option.some.inj (htmc2.symm.trans htmc)] at htsaperm
  have hmtrest' : ((p.children.erase nid).erase adjId).mapM (extract h' (fuel + 1))
      = some trest := by
    rw [mapM_congr_mem _ (fun c hc => hcongr_other c (hrestmem c hc).1
      (hrestmem c hc).2.1 (hrestmem c hc).2.2)]
    exact hmtrest
  have hmcons : (mc :: s.children).mapM (extract h fuel) = some (tmc :: tsn) := by
    rw [List.mapM_cons, htmc, hmtsn]
    rfl
  have hmcons' : (mc :: s.children).mapM (extract h' fuel) = some (tmc :: tsn) := by
    rw [mapM_congr_mem _ (fun x hx => by
      rcases List.mem_cons.mp hx with rfl | hx2
      · exact hcongr_a x hmcmem
      · exact hcongr_s x hx2)]
    exact hmcons
  obtain ⟨tsn', hmtsn', htsnperm⟩ := mapM_perm_option hsc.symm hmcons'
  have htn' : extract h' (fuel + 1) nid = some (PTree.node s'.values tsn') := by
    rw [extract, hs']
    simp only [Option.pure_def, Option.bind_eq_bind, Option.some_bind, hmtsn']
  have hma2' : a'.children.mapM (extract h' fuel) = some tsa2 := by
    rw [mapM_congr_mem _ (fun x hx => hcongr_a x
      (hac.mem_iff.mpr (List.mem_cons_of_mem _ hx)))]
    exact hma2
  have hta' : extract h' (fuel + 1) adjId = some (PTree.node a'.values tsa2) := by
    rw [extract, ha']
    simp only [Option.pure_def, Option.bind_eq_bind, Option.some_bind, hma2']
  have hmcons2 : (nid :: adjId :: (p.children.erase nid).erase adjId).mapM
      (extract h' (fuel + 1))
      = some (PTree.node s'.values tsn' :: PTree.node a'.values tsa2 :: trest) := by
    rw [List.mapM_cons, htn', List.mapM_cons, hta', hmtrest']
    simp only [Option.pure_def, Option.bind_eq_bind, Option.some_bind]
  obtain ⟨ts', hmts', hts'perm⟩ := mapM_perm_option hP.symm hmcons2
  have hpt' : extract h' (fuel + 2) pid = some (PTree.node p'.values ts') := by
    rw [extract, hp']
    simp only [Option.pure_def, Option.bind_eq_bind, Option.some_bind, hpc, hmts']
  refine ⟨PTree.node p'.values ts', hpt', ?_⟩
  have hlen_tsn : tsn.length = s.children.length := mapM_length_option _ _ hmtsn
  have hlen_tsa2 : tsa2.length = a'.children.length := by
    have := mapM_length_option _ _ hma2
    simpa using this
  have htsn_ne : tsn ≠ [] := by
    intro he
    rw [he] at hlen_tsn
    exact hsleaf (List.length_eq_zero.mp hlen_tsn.symm)
  have htsa2_ne : tsa2 ≠ [] := by
    intro he
    rw [he] at hlen_tsa2
    exact haleaf (List.length_eq_zero.mp hlen_tsa2.symm)
  have htsn'_ne : tsn' ≠ [] := by
    intro he
    have := htsnperm.length_eq
    rw [he] at this
    simp at this
  have hts'_ne : ts' ≠ [] := by
    intro he
    have := hts'perm.length_eq
    rw [he] at this
    simp at this
  have hts_ne : ts ≠ [] := by
    intro he
    have := htsperm.length_eq
    rw [he] at this
    simp at this
  have hshiftsum : ∀ (l1 l2 : List (PTree α)), l1.Perm l2 →
      (l1.map (fun c => Multiset.map (· + 1) (PTree.leafDepths c))).sum
        = (l2.map (fun c => Multiset.map (· + 1) (PTree.leafDepths c))).sum := by
    intro l1 l2 hperm12
    exact List.Perm.sum_eq (hperm12.map _)
  have hLDtn : PTree.leafDepths (PTree.node s.values tsn)
      = (tsn.map (fun c => Multiset.map (· + 1) (PTree.leafDepths c))).sum := by
    rw [leafDepths_node, if_neg (by simpa using htsn_ne)]
  have hLDtn' : PTree.leafDepths (PTree.node s'.values tsn')
      = Multiset.map (· + 1) (PTree.leafDepths tmc)
        + (tsn.map (fun c => Multiset.map (· + 1) (PTree.leafDepths c))).sum := by
    rw [leafDepths_node, if_neg (by simpa using htsn'_ne),
      hshiftsum tsn' (tmc :: tsn) htsnperm.symm]
    simp [List.map_cons]
  have hLDta : PTree.leafDepths (PTree.node a.values tsa)
      = Multiset.map (· + 1) (PTree.leafDepths tmc)
        + (tsa2.map (fun c => Multiset.map (· + 1) (PTree.leafDepths c))).sum := by
    rw [leafDepths_node, if_neg (by
      simp only [List.isEmpty_iff]
      intro he
      have := htsaperm.length_eq
      rw [he] at this
      simp at this), hshiftsum tsa (tmc :: tsa2) htsaperm]
    simp [List.map_cons]
  have hLDta' : PTree.leafDepths (PTree.node a'.values tsa2)
      = (tsa2.map (fun c => Multiset.map (· + 1) (PTree.leafDepths c))).sum := by
    rw [leafDepths_node, if_neg (by simpa using htsa2_ne)]
  rw [leafDepths_node, leafDepths_node, if_neg (by simpa using hts'_ne),
    if_neg (by simpa using hts_ne),
    hshiftsum ts' (PTree.node s'.values tsn' :: PTree.node a'.values tsa2 :: trest)
      hts'perm.symm,
    hshiftsum ts (PTree.node s.values tsn :: PTree.node a.values tsa :: trest) htsperm]
  simp only [List.map_cons, List.sum_cons, hLDtn, hLDtn', hLDta, hLDta',
    Multiset.map_add]
  abel


/-- Characterization of `rotate` with `go_left = true` when the adjacent
(left) node is a leaf: the parent's separating key is prepended to the
node's keys, the adjacent node's last key replaces it in the parent, and
no child list changes. -/
theorem Heap.rotate_left_leaf_spec (h : Heap α) (nid parent_value_ix adjId pid : Nat)
    (s p a : NodeData α) (nr ns : α)
    (hs : h.find? nid = some s) (hpar : s.parent = some pid)
    (hp : h.find? pid = some p) (ha : h.find? adjId = some a)
    (hnp : nid ≠ pid) (han : adjId ≠ nid) (hap : adjId ≠ pid)
    (hnr : a.values.getLast? = some nr)
    (hns : p.values.get? parent_value_ix = some ns)
    (hleaf : a.children.isEmpty = true) :
    ∃ h', h.rotate nid parent_value_ix adjId true = some h' ∧
      h'.find? nid = some { s with values := ns :: s.values } ∧
      h'.find? pid = some { p with values := p.values.set parent_value_ix nr } ∧
      h'.find? adjId = some { a with values := a.values.dropLast } ∧
      (∀ j, j ≠ nid → j ≠ pid → j ≠ adjId → h'.find? j = h.find? j) ∧
      h'.nextId = h.nextId := by
  unfold Heap.rotate
  rw [hs]
  simp only [Option.pure_def, Option.bind_eq_bind, Option.some_bind, hpar, ha,
    eq_self_iff_true, if_true, hnr]
  set h1 := h.setNode adjId { a with values := a.values.dropLast } with hh1
  have hp1 : h1.find? pid = some p := by
    rw [hh1, Heap.find?_setNode_ne h _ (Ne.symm hap)]; exact hp
  rw [hp1]
  simp only [Option.some_bind, hns]
  set h2 := h1.setNode pid { p with values := p.values.set parent_value_ix nr } with hh2
  have hs2 : h2.find? nid = some s := by
    rw [hh2, Heap.find?_setNode_ne h1 _ hnp, hh1, Heap.find?_setNode_ne h _ (Ne.symm han)]
    exact hs
  rw [hs2]
  simp only [Option.some_bind]
  set h3 := h2.setNode nid { s with values := ns :: s.values } with hh3
  have ha3 : h3.find? adjId = some { a with values := a.values.dropLast } := by
    rw [hh3, Heap.find?_setNode_ne h2 _ han, hh2, Heap.find?_setNode_ne h1 _ hap, hh1,
      Heap.find?_setNode_self h adjId a _ ha]
  rw [ha3]
  simp only [Option.some_bind, NodeData.is_leaf, hleaf, if_true]
  refine ⟨h3, rfl, ?_, ?_, ha3, ?_, rfl⟩
  · rw [hh3, Heap.find?_setNode_self h2 nid s _ hs2, hpar]
  · rw [hh3, Heap.find?_setNode_ne h2 _ (Ne.symm hnp), hh2,
      Heap.find?_setNode_self h1 pid p _ hp1]
  · intro j hjn hjp hja
    rw [hh3, Heap.find?_setNode_ne h2 _ hjn, hh2, Heap.find?_setNode_ne h1 _ hjp, hh1,
      Heap.find?_setNode_ne h _ hja]

/-- Characterization of `rotate` with `go_left = true` when the adjacent
(left) node is internal: in addition to the key movement, the adjacent
node's last child `mc` moves to the front of the node's child list and is
re-parented to the node. -/
theorem Heap.rotate_left_internal_spec (h : Heap α) (nid parent_value_ix adjId pid mc : Nat)
    (s p a : NodeData α) (nr ns : α)
    (hs : h.find? nid = some s) (hpar : s.parent = some pid)
    (hp : h.find? pid = some p) (ha : h.find? adjId = some a)
    (hnp : nid ≠ pid) (han : adjId ≠ nid) (hap : adjId ≠ pid)
    (hnr : a.values.getLast? = some nr)
    (hns : p.values.get? parent_value_ix = some ns)
    (hmc : a.children.getLast? = some mc)
    (hmn : mc ≠ nid) (hmp : mc ≠ pid) (hma : mc ≠ adjId) :
    ∃ h', h.rotate nid parent_value_ix adjId true = some h' ∧
      h'.find? nid = some { s with values := ns :: s.values,
                                   children := mc :: s.children } ∧
      h'.find? pid = some { p with values := p.values.set parent_value_ix nr } ∧
      h'.find? adjId = some { a with values := a.values.dropLast,
                                     children := a.children.dropLast } ∧
      h'.find? mc = (h.find? mc).map (fun d => { d with parent := some nid }) ∧
      (∀ j, j ≠ nid → j ≠ pid → j ≠ adjId → j ≠ mc → h'.find? j = h.find? j) ∧
      h'.nextId = h.nextId := by
  have hane : a.children ≠ [] := by
    intro he; rw [he] at hmc; simp at hmc
  have hleaf : a.children.isEmpty = false := by
    simpa [List.isEmpty_iff] using hane
  unfold Heap.rotate
  rw [hs]
  simp only [Option.pure_def, Option.bind_eq_bind, Option.some_bind, hpar, ha,
    eq_self_iff_true, if_true, hnr]
  set h1 := h.setNode adjId { a with values := a.values.dropLast } with hh1
  have hp1 : h1.find? pid = some p := by
    rw [hh1, Heap.find?_setNode_ne h _ (Ne.symm hap)]; exact hp
  rw [hp1]
  simp only [Option.some_bind, hns]
  set h2 := h1.setNode pid { p with values := p.values.set parent_value_ix nr } with hh2
  have hs2 : h2.find? nid = some s := by
    rw [hh2, Heap.find?_setNode_ne h1 _ hnp, hh1, Heap.find?_setNode_ne h _ (Ne.symm han)]
    exact hs
  rw [hs2]
  simp only [Option.some_bind]
  set h3 := h2.setNode nid { s with values := ns :: s.values } with hh3
  have ha3 : h3.find? adjId = some { a with values := a.values.dropLast } := by
    rw [hh3, Heap.find?_setNode_ne h2 _ han, hh2, Heap.find?_setNode_ne h1 _ hap, hh1,
      Heap.find?_setNode_self h adjId a _ ha]
  rw [ha3]
  simp only [Option.some_bind, NodeData.is_leaf, hleaf, Bool.false_eq_true, if_false, hmc]
  set h4 := h3.setNode adjId { a with values := a.values.dropLast,
                                      children := a.children.dropLast } with hh4
  set h5 := h4.modifyNode mc (fun d => { d with parent := some nid }) with hh5
  have hs5 : h5.find? nid = some { s with values := ns :: s.values } := by
    rw [hh5, Heap.find?_modifyNode_ne h4 _ (Ne.symm hmn), hh4,
      Heap.find?_setNode_ne h3 _ (Ne.symm han), hh3,
      Heap.find?_setNode_self h2 nid s _ hs2]
  rw [hs5]
  simp only [Option.some_bind]
  set h6 := h5.setNode nid { s with values := ns :: s.values,
                                    children := mc :: s.children } with hh6
  have hs4 : h4.find? nid = some { s with values := ns :: s.values } := by
    rw [hh4, Heap.find?_setNode_ne h3 _ (Ne.symm han), hh3,
      Heap.find?_setNode_self h2 nid s _ hs2]
  refine ⟨h6, rfl, ?_, ?_, ?_, ?_, ?_, ?_⟩
  · rw [hh6, Heap.find?_setNode_self h5 nid _ _ hs5, hpar]
  · rw [hh6, Heap.find?_setNode_ne h5 _ (Ne.symm hnp), hh5,
      Heap.find?_modifyNode_ne h4 _ (Ne.symm hmp), hh4,
      Heap.find?_setNode_ne h3 _ (Ne.symm hap), hh3,
      Heap.find?_setNode_ne h2 _ (Ne.symm hnp), hh2,
      Heap.find?_setNode_self h1 pid p _ hp1]
  · rw [hh6, Heap.find?_setNode_ne h5 _ han, hh5,
      Heap.find?_modifyNode_ne h4 _ (Ne.symm hma), hh4,
      Heap.find?_setNode_self h3 adjId _ _ ha3]
  · rw [hh6, Heap.find?_setNode_ne h5 _ hmn, hh5, Heap.find?_modifyNode_self h4 mc _, hh4,
      Heap.find?_setNode_ne h3 _ hma, hh3, Heap.find?_setNode_ne h2 _ hmn, hh2,
      Heap.find?_setNode_ne h1 _ hmp, hh1, Heap.find?_setNode_ne h _ hma]
  · intro j hjn hjp hja hjm
    rw [hh6, Heap.find?_setNode_ne h5 _ hjn, hh5, Heap.find?_modifyNode_ne h4 _ hjm, hh4,
      Heap.find?_setNode_ne h3 _ hja, hh3, Heap.find?_setNode_ne h2 _ hjn, hh2,
      Heap.find?_setNode_ne h1 _ hjp, hh1, Heap.find?_setNode_ne h _ hja]
  · rw [hh6, Heap.nextId_setNode, hh5, Heap.nextId_modifyNode, hh4, Heap.nextId_setNode,
      hh3, Heap.nextId_setNode, hh2, Heap.nextId_setNode, hh1, Heap.nextId_setNode]

/-- Characterization of `rotate` with `go_left = false` when the adjacent
(right) node is a leaf: the parent's separating key is appended to the
node's keys and the adjacent node's first key replaces it in the parent. -/
theorem Heap.rotate_right_leaf_spec (h : Heap α) (nid parent_value_ix adjId pid : Nat)
    (s p a : NodeData α) (nr ns : α)
    (hs : h.find? nid = some s) (hpar : s.parent = some pid)
    (hp : h.find? pid = some p) (ha : h.find? adjId = some a)
    (hnp : nid ≠ pid) (han : adjId ≠ nid) (hap : adjId ≠ pid)
    (hnr : a.values.head? = some nr)
    (hns : p.values.get? parent_value_ix = some ns)
    (hleaf : a.children.isEmpty = true) :
    ∃ h', h.rotate nid parent_value_ix adjId false = some h' ∧
      h'.find? nid = some { s with values := s.values ++ [ns] } ∧
      h'.find? pid = some { p with values := p.values.set parent_value_ix nr } ∧
      h'.find? adjId = some { a with values := a.values.tail } ∧
      (∀ j, j ≠ nid → j ≠ pid → j ≠ adjId → h'.find? j = h.find? j) ∧
      h'.nextId = h.nextId := by
  unfold Heap.rotate
  rw [hs]
  simp only [Option.pure_def, Option.bind_eq_bind, Option.some_bind, hpar, ha,
    Bool.false_eq_true, if_false, hnr]
  set h1 := h.setNode adjId { a with values := a.values.tail } with hh1
  have hp1 : h1.find? pid = some p := by
    rw [hh1, Heap.find?_setNode_ne h _ (Ne.symm hap)]; exact hp
  rw [hp1]
  simp only [Option.some_bind, hns]
  set h2 := h1.setNode pid { p with values := p.values.set parent_value_ix nr } with hh2
  have hs2 : h2.find? nid = some s := by
    rw [hh2, Heap.find?_setNode_ne h1 _ hnp, hh1, Heap.find?_setNode_ne h _ (Ne.symm han)]
    exact hs
  rw [hs2]
  simp only [Option.some_bind]
  set h3 := h2.setNode nid { s with values := s.values ++ [ns] } with hh3
  have ha3 : h3.find? adjId = some { a with values := a.values.tail } := by
    rw [hh3, Heap.find?_setNode_ne h2 _ han, hh2, Heap.find?_setNode_ne h1 _ hap, hh1,
      Heap.find?_setNode_self h adjId a _ ha]
  rw [ha3]
  simp only [Option.some_bind, NodeData.is_leaf, hleaf, if_true]
  refine ⟨h3, rfl, ?_, ?_, ha3, ?_, rfl⟩
  · rw [hh3, Heap.find?_setNode_self h2 nid s _ hs2, hpar]
  · rw [hh3, Heap.find?_setNode_ne h2 _ (Ne.symm hnp), hh2,
      Heap.find?_setNode_self h1 pid p _ hp1]
  · intro j hjn hjp hja
    rw [hh3, Heap.find?_setNode_ne h2 _ hjn, hh2, Heap.find?_setNode_ne h1 _ hjp, hh1,
      Heap.find?_setNode_ne h _ hja]

/-- Characterization of `rotate` with `go_left = false` when the adjacent
(right) node is internal: the adjacent node's first child `mc` moves to the
end of the node's child list and is re-parented to the node. -/
theorem Heap.rotate_right_internal_spec (h : Heap α) (nid parent_value_ix adjId pid mc : Nat)
    (s p a : NodeData α) (nr ns : α)
    (hs : h.find? nid = some s) (hpar : s.parent = some pid)
    (hp : h.find? pid = some p) (ha : h.find? adjId = some a)
    (hnp : nid ≠ pid) (han : adjId ≠ nid) (hap : adjId ≠ pid)
    (hnr : a.values.head? = some nr)
    (hns : p.values.get? parent_value_ix = some ns)
    (hmc : a.children.head? = some mc)
    (hmn : mc ≠ nid) (hmp : mc ≠ pid) (hma : mc ≠ adjId) :
    ∃ h', h.rotate nid parent_value_ix adjId false = some h' ∧
      h'.find? nid = some { s with values := s.values ++ [ns],
                                   children := s.children ++ [mc] } ∧
      h'.find? pid = some { p with values := p.values.set parent_value_ix nr } ∧
      h'.find? adjId = some { a with values := a.values.tail,
                                     children := a.children.tail } ∧
      h'.find? mc = (h.find? mc).map (fun d => { d with parent := some nid }) ∧
      (∀ j, j ≠ nid → j ≠ pid → j ≠ adjId → j ≠ mc → h'.find? j = h.find? j) ∧
      h'.nextId = h.nextId := by
  have hane : a.children ≠ [] := by
    intro he; rw [he] at hmc; simp at hmc
  have hleaf : a.children.isEmpty = false := by
    simpa [List.isEmpty_iff] using hane
  unfold Heap.rotate
  rw [hs]
  simp only [Option.pure_def, Option.bind_eq_bind, Option.some_bind, hpar, ha,
    Bool.false_eq_true, if_false, hnr]
  set h1 := h.setNode adjId { a with values := a.values.tail } with hh1
  have hp1 : h1.find? pid = some p := by
    rw [hh1, Heap.find?_setNode_ne h _ (Ne.symm hap)]; exact hp
  rw [hp1]
  simp only [Option.some_bind, hns]
  set h2 := h1.setNode pid { p with values := p.values.set parent_value_ix nr } with hh2
  have hs2 : h2.find? nid = some s := by
    rw [hh2, Heap.find?_setNode_ne h1 _ hnp, hh1, Heap.find?_setNode_ne h _ (Ne.symm han)]
    exact hs
  rw [hs2]
  simp only [Option.some_bind]
  set h3 := h2.setNode nid { s with values := s.values ++ [ns] } with hh3
  have ha3 : h3.find? adjId = some { a with values := a.values.tail } := by
    rw [hh3, Heap.find?_setNode_ne h2 _ han, hh2, Heap.find?_setNode_ne h1 _ hap, hh1,
      Heap.find?_setNode_self h adjId a _ ha]
  rw [ha3]
  simp only [Option.some_bind, NodeData.is_leaf, hleaf, Bool.false_eq_true, if_false, hmc]
  set h4 := h3.setNode adjId { a with values := a.values.tail,
                                      children := a.children.tail } with hh4
  set h5 := h4.modifyNode mc (fun d => { d with parent := some nid }) with hh5
  have hs5 : h5.find? nid = some { s with values := s.values ++ [ns] } := by
    rw [hh5, Heap.find?_modifyNode_ne h4 _ (Ne.symm hmn), hh4,
      Heap.find?_setNode_ne h3 _ (Ne.symm han), hh3,
      Heap.find?_setNode_self h2 nid s _ hs2]
  rw [hs5]
  simp only [Option.some_bind]
  set h6 := h5.setNode nid { s with values := s.values ++ [ns],
                                    children := s.children ++ [mc] } with hh6
  refine ⟨h6, rfl, ?_, ?_, ?_, ?_, ?_, ?_⟩
  · rw [hh6, Heap.find?_setNode_self h5 nid _ _ hs5, hpar]
  · rw [hh6, Heap.find?_setNode_ne h5 _ (Ne.symm hnp), hh5,
      Heap.find?_modifyNode_ne h4 _ (Ne.symm hmp), hh4,
      Heap.find?_setNode_ne h3 _ (Ne.symm hap), hh3,
      Heap.find?_setNode_ne h2 _ (Ne.symm hnp), hh2,
      Heap.find?_setNode_self h1 pid p _ hp1]
  · rw [hh6, Heap.find?_setNode_ne h5 _ han, hh5,
      Heap.find?_modifyNode_ne h4 _ (Ne.symm hma), hh4,
      Heap.find?_setNode_self h3 adjId _ _ ha3]
  · rw [hh6, Heap.find?_setNode_ne h5 _ hmn, hh5, Heap.find?_modifyNode_self h4 mc _, hh4,
      Heap.find?_setNode_ne h3 _ hma, hh3, Heap.find?_setNode_ne h2 _ hmn, hh2,
      Heap.find?_setNode_ne h1 _ hmp, hh1, Heap.find?_setNode_ne h _ hma]
  · intro j hjn hjp hja hjm
    rw [hh6, Heap.find?_setNode_ne h5 _ hjn, hh5, Heap.find?_modifyNode_ne h4 _ hjm, hh4,
      Heap.find?_setNode_ne h3 _ hja, hh3, Heap.find?_setNode_ne h2 _ hjn, hh2,
      Heap.find?_setNode_ne h1 _ hjp, hh1, Heap.find?_setNode_ne h _ hja]
  · rw [hh6, Heap.nextId_setNode, hh5, Heap.nextId_modifyNode, hh4, Heap.nextId_setNode,
      hh3, Heap.nextId_setNode, hh2, Heap.nextId_setNode, hh1, Heap.nextId_setNode]

theorem mapM_ld_exists {h h' : Heap α} {fuel : Nat} :
    ∀ (cs : List Nat),
      (∀ c ∈ cs, ∀ t, extract h fuel c = some t →
        ∃ t', extract h' fuel c = some t' ∧ t'.leafDepths = t.leafDepths) →
      ∀ (ts : List (PTree α)), cs.mapM (extract h fuel) = some ts →
        ∃ ts', cs.mapM (extract h' fuel) = some ts' ∧
          ts'.map (fun c => Multiset.map (· + 1) (PTree.leafDepths c))
            = ts.map (fun c => Multiset.map (· + 1) (PTree.leafDepths c)) ∧
          ts'.length = ts.length := by
  intro cs
  induction cs with
  | nil =>
      intro _ ts hm
      simp only [List.mapM_nil, Option.pure_def, Option.some.injEq] at hm
      exact ⟨[], rfl, by simp [← hm], by simp [← hm]⟩
  | cons c cs ih =>
      intro hall ts hm
      obtain ⟨t, ts0, ht, hts0, rfl⟩ := mapM_cons_some hm
      obtain ⟨t', ht', hld⟩ := hall c (List.mem_cons_self c cs) t ht
      obtain ⟨ts0', hts0', hmap, hlen⟩ :=
        ih (fun x hx => hall x (List.mem_cons_of_mem c hx)) ts0 hts0
      refine ⟨t' :: ts0', ?_, ?_, ?_⟩
      · rw [List.mapM_cons, ht', hts0']; rfl
      · simp [hmap, hld]
      · simp [hlen]

/-- If every node reachable from `i` keeps its child list (values and
parent references may change), then the extracted tree keeps its multiset
of leaf depths. -/
theorem extract_ld_congr_children (h h' : Heap α) :
    ∀ (fuel i : Nat) (L : List Nat), idsOf h fuel i = some L →
      (∀ j ∈ L, (h'.find? j).map NodeData.children = (h.find? j).map NodeData.children) →
      ∀ pt, extract h fuel i = some pt →
        ∃ pt', extract h' fuel i = some pt' ∧ pt'.leafDepths = pt.leafDepths := by
  intro fuel
  induction fuel with
  | zero => intro i L hL; rw [idsOf] at hL; simp at hL
  | succ fuel ih =>
      intro i L hL hch pt hpt
      obtain ⟨d, Ls, hd, hm, rfl⟩ := idsOf_succ h fuel i L hL
      obtain ⟨d2, ts, hd2, hmts, rfl⟩ := extract_succ h fuel i pt hpt
      rw [show d2 = d from Option.some.inj (hd2.symm.trans hd)] at hmts
      have hchi := hch i (List.mem_cons_self _ _)
      rw [hd, Option.map_some'] at hchi
      cases hd' : h'.find? i with
      | none => rw [hd'] at hchi; simp at hchi
      | some d' =>
          rw [hd'] at hchi
          simp only [Option.map_some', Option.some.injEq] at hchi
          have hpointwise : ∀ c ∈ d.children, ∀ t, extract h fuel c = some t →
              ∃ t', extract h' fuel c = some t' ∧ t'.leafDepths = t.leafDepths := by
            intro c hc t ht
            obtain ⟨Lc, hLc, hLcmem⟩ := mapM_mem_option d.children Ls hm c hc
            exact ih c Lc hLc (fun j hj => hch j
              (List.mem_cons_of_mem _ (List.mem_flatten.mpr ⟨Lc, hLcmem, hj⟩))) t ht
          obtain ⟨ts', hts', hmap, hlen⟩ := mapM_ld_exists d.children hpointwise ts hmts
          refine ⟨PTree.node d'.values ts', ?_, ?_⟩
          · rw [extract, hd']
            simp only [Option.pure_def, Option.bind_eq_bind, Option.some_bind, hchi, hts']
          · rw [leafDepths_node, leafDepths_node, hmap]
            have : ts'.isEmpty = ts.isEmpty := by
              cases ts' <;> cases ts <;> simp_all
            rw [this]

theorem idsOf_self_mem (h : Heap α) (fuel i : Nat) (L : List Nat)
    (hL : idsOf h fuel i = some L) : i ∈ L := by
  cases fuel with
  | zero => rw [idsOf] at hL; simp at hL
  | succ fuel =>
      obtain ⟨d, Ls, hd, hm, rfl⟩ := idsOf_succ h fuel i L hL
      exact List.mem_cons_self _ _

theorem child_of_adj_distinct (h : Heap α) (fuel pid nid adjId mc : Nat) (L : List Nat)
    (p a : NodeData α)
    (hL : idsOf h (fuel + 2) pid = some L) (hnd : L.Nodup)
    (hp : h.find? pid = some p) (ha : h.find? adjId = some a)
    (hmem_n : nid ∈ p.children) (hmem_a : adjId ∈ p.children)
    (hnadj : nid ≠ adjId) (hmcmem : mc ∈ a.children) :
    mc ≠ nid ∧ mc ≠ pid ∧ mc ≠ adjId := by
  obtain ⟨dp, Ls, hdp, hmLs, rfl⟩ := idsOf_succ h (fuel + 1) pid L hL
  rw [show dp = p from Option.some.inj (hdp.symm.trans hp)] at hmLs
  have hndf : Ls.flatten.Nodup := (List.nodup_cons.mp hnd).2
  have hpidflat : pid ∉ Ls.flatten := (List.nodup_cons.mp hnd).1
  obtain ⟨Ln, hLn, hLnmem⟩ := mapM_mem_option p.children Ls hmLs nid hmem_n
  obtain ⟨La, hLa, hLamem⟩ := mapM_mem_option p.children Ls hmLs adjId hmem_a
  obtain ⟨da, Ha, hda, hmHa, hLaeq⟩ := idsOf_succ h fuel adjId La hLa
  rw [show da = a from Option.some.inj (hda.symm.trans ha)] at hmHa
  obtain ⟨Lmc, hLmc, hLmcmem⟩ := mapM_mem_option a.children Ha hmHa mc hmcmem
  have hmcLmc : mc ∈ Lmc := idsOf_self_mem h fuel mc Lmc hLmc
  have hmcHa : mc ∈ Ha.flatten := List.mem_flatten.mpr ⟨Lmc, hLmcmem, hmcLmc⟩
  have hmcLa : mc ∈ La := by rw [hLaeq]; exact List.mem_cons_of_mem _ hmcHa
  have hdisj : List.Disjoint Ln La :=
    blocks_disjoint h fuel p.children Ls hmLs hndf hmem_n hmem_a hnadj hLn hLa
  have hnidLn : nid ∈ Ln := idsOf_self_mem h (fuel + 1) nid Ln hLn
  refine ⟨?_, ?_, ?_⟩
  · intro he
    rw [he] at hmcLa
    exact hdisj hnidLn hmcLa
  · intro he
    rw [he] at hmcLa
    exact hpidflat (block_subset_flatten p.children Ls hmLs hmem_a hLa pid hmcLa)
  · have hLand : La.Nodup := (List.nodup_flatten.mp hndf).1 _ hLamem
    rw [hLaeq] at hLand
    intro he
    rw [he] at hmcHa
    exact (List.nodup_cons.mp hLand).1 hmcHa

/-- C8: `rotate(parent_value_ix, adj_node, go_left)` moves exactly one key
across the parent boundary: the multiset union of the keys held by the
node, its parent and the adjacent node is unchanged by the call, the node
gains exactly one key while the adjacent node loses exactly one key, and
the multiset of leaf depths of the tree extracted at the parent (which
contains every node the call touches) is unchanged, for both rotation
directions and for leaf as well as internal adjacent nodes. -/
theorem c8_rotate_spec [DecidableEq α] (h : Heap α)
    (fuel nid parent_value_ix adjId pid : Nat)
    (go_left : Bool) (L : List Nat) (s p a : NodeData α) (nr ns : α)
    (hL : idsOf h (fuel + 2) pid = some L) (hnd : L.Nodup)
    (hs : h.find? nid = some s) (hpar : s.parent = some pid)
    (hp : h.find? pid = some p) (ha : h.find? adjId = some a)
    (hnp : nid ≠ pid) (han : adjId ≠ nid) (hap : adjId ≠ pid)
    (hmem_n : nid ∈ p.children) (hmem_a : adjId ∈ p.children)
    (hnr : (if go_left then a.values.getLast? else a.values.head?) = some nr)
    (hns : p.values.get? parent_value_ix = some ns)
    (hlevel : s.children = [] → a.children = [])
    (halen : a.children ≠ [] → 1 < a.children.length) :
    ∃ h' s' p' a', h.rotate nid parent_value_ix adjId go_left = some h' ∧
      h'.find? nid = some s' ∧ h'.find? pid = some p' ∧ h'.find? adjId = some a' ∧
      (↑s'.values + ↑p'.values + ↑a'.values : Multiset α)
        = ↑s.values + ↑p.values + ↑a.values ∧
      s'.values.length = s.values.length + 1 ∧
      a'.values.length + 1 = a.values.length ∧
      (∀ pt, extract h (fuel + 2) pid = some pt →
        ∃ pt', extract h' (fuel + 2) pid = some pt' ∧
          pt'.leafDepths = pt.leafDepths) := by
  obtain ⟨hlt, hget⟩ := List.get?_eq_some.mp hns
  have hpsplit : p.values
      = p.values.take parent_value_ix ++ ns :: p.values.drop (parent_value_ix + 1) := by
    conv_lhs => rw [← List.take_append_drop parent_value_ix p.values]
    rw [← List.get_cons_drop p.values ⟨parent_value_ix, hlt⟩, hget]
  have hset : p.values.set parent_value_ix nr
      = p.values.take parent_value_ix ++ nr :: p.values.drop (parent_value_ix + 1) :=
    List.set_eq_take_cons_drop nr hlt
  cases go_left with
  | true =>
      rw [if_pos rfl] at hnr
      have hadm : a.values.dropLast ++ [nr] = a.values :=
        List.dropLast_append_getLast? nr hnr
      have havne : a.values ≠ [] := by
        intro he; rw [he] at hnr; simp at hnr
      have hms : ((ns :: s.values : List α) : Multiset α)
          + ↑(p.values.set parent_value_ix nr) + ↑(a.values.dropLast)
          = ↑s.values + ↑p.values + ↑a.values := by
        conv_rhs => rw [hpsplit, ← hadm]
        rw [hset]
        simp only [Multiset.coe_add]
        rw [Multiset.coe_eq_coe, List.perm_iff_count]
        intro b
        simp only [List.count_append, List.count_cons, List.count_nil]
        ring
      by_cases hemp : a.children = []
      · have hleaf : a.children.isEmpty = true := by simp [hemp]
        obtain ⟨h', hrot, hFs, hFp, hFa, hframe, hnext⟩ :=
          Heap.rotate_left_leaf_spec h nid parent_value_ix adjId pid s p a nr ns
            hs hpar hp ha hnp han hap hnr hns hleaf
        refine ⟨h', _, _, _, hrot, hFs, hFp, hFa, hms, by simp, ?_, ?_⟩
        · have hpos : 0 < a.values.length := List.length_pos.mpr havne
          simp only [List.length_dropLast]
          omega
        · intro pt hpt
          apply extract_ld_congr_children h h' (fuel + 2) pid L hL ?_ pt hpt
          intro j _
          by_cases hjn : j = nid
          · subst hjn; rw [hFs, hs]; rfl
          by_cases hjp : j = pid
          · subst hjp; rw [hFp, hp]; rfl
          by_cases hja : j = adjId
          · subst hja; rw [hFa, ha]; rfl
          rw [hframe j hjn hjp hja]
      · set mc := a.children.getLast hemp with hmcdef
        have hmc : a.children.getLast? = some mc :=
          List.getLast?_eq_getLast_of_ne_nil hemp
        have hmcmem : mc ∈ a.children := List.mem_of_mem_getLast? hmc
        obtain ⟨hmn, hmp, hma⟩ := child_of_adj_distinct h fuel pid nid adjId mc L p a
          hL hnd hp ha hmem_n hmem_a (Ne.symm han) hmcmem
        obtain ⟨h', hrot, hFs, hFp, hFa, hFmc, hframe, hnext⟩ :=
          Heap.rotate_left_internal_spec h nid parent_value_ix adjId pid mc s p a nr ns
            hs hpar hp ha hnp han hap hnr hns hmc hmn hmp hma
        have hsne : s.children ≠ [] := fun hse => hemp (hlevel hse)
        have halen2 : 1 < a.children.length := halen hemp
        have hdlne : a.children.dropLast ≠ [] := by
          have hld := List.length_dropLast a.children
          intro he
          rw [he] at hld
          simp at hld
          omega
        have hacperm : a.children.Perm (mc :: a.children.dropLast) := by
          conv_lhs => rw [← List.dropLast_append_getLast? mc hmc]
          exact List.perm_append_comm
        refine ⟨h', _, _, _, hrot, hFs, hFp, hFa, hms, by simp, ?_, ?_⟩
        · have hpos : 0 < a.values.length := List.length_pos.mpr havne
          simp only [List.length_dropLast]
          omega
        · have hshape : ∀ j, j ≠ nid → j ≠ adjId → j ≠ pid →
              shapeAt h' j = shapeAt h j := by
            intro j hjn hja hjp
            by_cases hjm : j = mc
            · subst hjm
              unfold shapeAt
              rw [hFmc]
              cases h.find? mc <;> rfl
            · unfold shapeAt
              rw [hframe j hjn hjp hja hjm]
          exact leafDepths_move_child h h' fuel pid nid adjId mc L p _ s _ a _ hL hnd
            hp hFp rfl hs hFs (List.Perm.refl _) ha hFa hacperm hmem_n hmem_a
            (Ne.symm han) hsne hdlne hshape
  | false =>
      rw [if_neg (by simp)] at hnr
      have hadm : nr :: a.values.tail = a.values := List.cons_head?_tail hnr
      have havne : a.values ≠ [] := by
        intro he; rw [he] at hnr; simp at hnr
      have hms : ((s.values ++ [ns] : List α) : Multiset α)
          + ↑(p.values.set parent_value_ix nr) + ↑(a.values.tail)
          = ↑s.values + ↑p.values + ↑a.values := by
        conv_rhs => rw [hpsplit, ← hadm]
        rw [hset]
        simp only [Multiset.coe_add]
        rw [Multiset.coe_eq_coe, List.perm_iff_count]
        intro b
        simp only [List.count_append, List.count_cons, List.count_nil]
        ring
      by_cases hemp : a.children = []
      · have hleaf : a.children.isEmpty = true := by simp [hemp]
        obtain ⟨h', hrot, hFs, hFp, hFa, hframe, hnext⟩ :=
          Heap.rotate_right_leaf_spec h nid parent_value_ix adjId pid s p a nr ns
            hs hpar hp ha hnp han hap hnr hns hleaf
        refine ⟨h', _, _, _, hrot, hFs, hFp, hFa, hms, by simp, ?_, ?_⟩
        · have hpos : 0 < a.values.length := List.length_pos.mpr havne
          simp only [List.length_tail]
          omega
        · intro pt hpt
          apply extract_ld_congr_children h h' (fuel + 2) pid L hL ?_ pt hpt
          intro j _
          by_cases hjn : j = nid
          · subst hjn; rw [hFs, hs]; rfl
          by_cases hjp : j = pid
          · subst hjp; rw [hFp, hp]; rfl
          by_cases hja : j = adjId
          · subst hja; rw [hFa, ha]; rfl
          rw [hframe j hjn hjp hja]
      · have hhd : a.children.head? = some (a.children.head hemp) :=
          List.head?_eq_head hemp
        set mc := a.children.head hemp with hmcdef
        have hmc : a.children.head? = some mc := hhd
        have hmcmem : mc ∈ a.children := List.mem_of_mem_head? hmc
        obtain ⟨hmn, hmp, hma⟩ := child_of_adj_distinct h fuel pid nid adjId mc L p a
          hL hnd hp ha hmem_n hmem_a (Ne.symm han) hmcmem
        obtain ⟨h', hrot, hFs, hFp, hFa, hFmc, hframe, hnext⟩ :=
          Heap.rotate_right_internal_spec h nid parent_value_ix adjId pid mc s p a nr ns
            hs hpar hp ha hnp han hap hnr hns hmc hmn hmp hma
        have hsne : s.children ≠ [] := fun hse => hemp (hlevel hse)
        have halen2 : 1 < a.children.length := halen hemp
        have htlne : a.children.tail ≠ [] := by
          have hld := List.length_tail a.children
          intro he
          rw [he] at hld
          simp at hld
          omega
        have hscperm : (s.children ++ [mc]).Perm (mc :: s.children) :=
          List.perm_append_comm
        have hacperm : a.children.Perm (mc :: a.children.tail) := by
          conv_lhs => rw [← List.cons_head?_tail hmc]
        refine ⟨h', _, _, _, hrot, hFs, hFp, hFa, hms, by simp, ?_, ?_⟩
        · have hpos : 0 < a.values.length := List.length_pos.mpr havne
          simp only [List.length_tail]
          omega
        · have hshape : ∀ j, j ≠ nid → j ≠ adjId → j ≠ pid →
              shapeAt h' j = shapeAt h j := by
            intro j hjn hja hjp
            by_cases hjm : j = mc
            · subst hjm
              unfold shapeAt
              rw [hFmc]
              cases h.find? mc <;> rfl
            · unfold shapeAt
              rw [hframe j hjn hjp hja hjm]
          exact leafDepths_move_child h h' fuel pid nid adjId mc L p _ s _ a _ hL hnd
            hp hFp rfl hs hFs hscperm ha hFa hacperm hmem_n hmem_a
            (Ne.symm han) hsne htlne hshape

theorem c8_rotate_spec_witness :
    ∃ h' s' p' a',
      (⟨[(0, ⟨3, [1, 2], [20], none⟩), (1, ⟨3, [], [5, 10], some 0⟩),
         (2, ⟨3, [], [30], some 0⟩)], 3⟩ : Heap ℕ).rotate 2 0 1 true = some h' ∧
      h'.find? 2 = some s' ∧ h'.find? 0 = some p' ∧ h'.find? 1 = some a' ∧
      (↑s'.values + ↑p'.values + ↑a'.values : Multiset ℕ)
        = ↑([30] : List ℕ) + ↑([20] : List ℕ) + ↑([5, 10] : List ℕ) ∧
      s'.values.length = ([30] : List ℕ).length + 1 ∧
      a'.values.length + 1 = ([5, 10] : List ℕ).length ∧
      (∀ pt, extract (⟨[(0, ⟨3, [1, 2], [20], none⟩), (1, ⟨3, [], [5, 10], some 0⟩),
          (2, ⟨3, [], [30], some 0⟩)], 3⟩ : Heap ℕ) 2 0 = some pt →
        ∃ pt', extract h' 2 0 = some pt' ∧ pt'.leafDepths = pt.leafDepths) :=
  c8_rotate_spec (⟨[(0, ⟨3, [1, 2], [20], none⟩), (1, ⟨3, [], [5, 10], some 0⟩),
      (2, ⟨3, [], [30], some 0⟩)], 3⟩ : Heap ℕ)
    0 2 0 1 0 true [0, 1, 2] ⟨3, [], [30], some 0⟩ ⟨3, [1, 2], [20], none⟩
    ⟨3, [], [5, 10], some 0⟩ 10 20
    (by decide) (by decide) (by decide) (by decide) (by decide) (by decide)
    (by decide) (by decide) (by decide) (by decide) (by decide) (by decide)
    (by decide) (fun _ => rfl) (fun hc => absurd rfl hc)
